import Mathlib

/-
Shallow embedding of the Azul game engine (vidstige/azul).

The source program lives in src/main.rs (the self-contained engine that the
binary runs) with a structurally identical copy of the rules engine in
src/azul.rs and of the search in src/minmax.rs.  Rust panics (asserts,
unwraps on empty draws, out-of-bounds indexing) are modelled by Option:
a `none` result means the Rust program would panic.  The random source
(`rand::Rng`) is modelled as an infinite stream of naturals `RNG := Nat → Nat`;
a weighted draw consumes the head of the stream reduced modulo the total
weight, which realises exactly the outcomes the `WeightedIndex` distribution
can produce (every color with non-zero count, and only those).
Machine integers: usize becomes Nat (Nat subtraction is truncated, which
coincides with Rust `saturating_sub`; where the Rust code uses plain `-`
on usize and could underflow, theorems carry the hypothesis that rules out
underflow, matching the panic-freedom precondition of the source);
i32 becomes Int together with the explicit bounds i32min/i32max.
-/

namespace Azul

/-- The random source: an infinite stream of naturals. -/
def RNG : Type := Nat → Nat

/-- Advance the random source by one consumed value. -/
def RNG.tail (g : RNG) : RNG := fun n => g (n + 1)

/-- The all-zeros random source, used for concrete evaluations. -/
def zeroRng : RNG := fun _ => 0

/-- enum Tile -/
inductive Tile : Type
  | BLACK
  | WHITE
  | AZUL
  | YELLOW
  | RED
deriving DecidableEq, Fintype

/-- const TILES: the five colors in declaration order. -/
def TILES : List Tile := [Tile.BLACK, Tile.WHITE, Tile.AZUL, Tile.YELLOW, Tile.RED]

/-- struct TileSet: a per-color multiset of tiles. -/
structure TileSet : Type where
  black : Nat
  white : Nat
  azul : Nat
  yellow : Nat
  red : Nat
deriving DecidableEq

namespace TileSet

/-- TileSet::new -/
def new : TileSet := ⟨0, 0, 0, 0, 0⟩

/-- Index<Tile> for TileSet -/
def get (ts : TileSet) : Tile → Nat
  | .BLACK => ts.black
  | .WHITE => ts.white
  | .AZUL => ts.azul
  | .YELLOW => ts.yellow
  | .RED => ts.red

/-- IndexMut<Tile> for TileSet, as a functional update. -/
def set (ts : TileSet) (t : Tile) (n : Nat) : TileSet :=
  match t with
  | .BLACK => { ts with black := n }
  | .WHITE => { ts with white := n }
  | .AZUL => { ts with azul := n }
  | .YELLOW => { ts with yellow := n }
  | .RED => { ts with red := n }

/-- self[tile] += n (the shape of every `+=` on a TileSet entry). -/
def add (ts : TileSet) (t : Tile) (n : Nat) : TileSet := ts.set t (ts.get t + n)

/-- TileSet::push -/
def push (ts : TileSet) (t : Tile) : TileSet := ts.add t 1

/-- TileSet::drain: zero out one color, returning the prior count. -/
def drain (ts : TileSet) (t : Tile) : Nat × TileSet := (ts.get t, ts.set t 0)

/-- TileSet::extend -/
def extend (ts other : TileSet) : TileSet :=
  ⟨ts.black + other.black, ts.white + other.white, ts.azul + other.azul,
   ts.yellow + other.yellow, ts.red + other.red⟩

/-- TileSet::len -/
def len (ts : TileSet) : Nat := ts.black + ts.white + ts.azul + ts.yellow + ts.red

/-- The color selected by WeightedIndex::sample for a random value r < len:
cumulative-weight selection, so exactly the colors with non-zero count are
reachable. -/
def pick (ts : TileSet) (r : Nat) : Tile :=
  if r < ts.black then .BLACK
  else if r < ts.black + ts.white then .WHITE
  else if r < ts.black + ts.white + ts.azul then .AZUL
  else if r < ts.black + ts.white + ts.azul + ts.yellow then .YELLOW
  else .RED

/-- TileSet::draw_one.  `none` models the panic of
`WeightedIndex::new(..).unwrap()` on an all-zero weight vector.  The
decrement is `saturating_sub`, as in the source. -/
def draw_one (ts : TileSet) (g : RNG) : Option (Tile × TileSet × RNG) :=
  if ts.len = 0 then none
  else
    let t := ts.pick (g 0 % ts.len)
    some (t, ts.set t (ts.get t - 1), g.tail)

/-- The loop body of TileSet::draw, accumulating the drawn mini-set. -/
def drawAux : Nat → TileSet → TileSet → RNG → Option (TileSet × TileSet × RNG)
  | 0, acc, ts, g => some (acc, ts, g)
  | n + 1, acc, ts, g => do
      let (t, ts', g') ← ts.draw_one g
      drawAux n (acc.push t) ts' g'

/-- TileSet::draw: n sequential weighted draws; returns (drawn, remaining, rng). -/
def draw (ts : TileSet) (g : RNG) (count : Nat) : Option (TileSet × TileSet × RNG) :=
  drawAux count TileSet.new ts g

end TileSet

/-- struct Wall: 5×5 boolean occupancy grid. -/
structure Wall : Type where
  rows : Fin 5 → Fin 5 → Bool
deriving DecidableEq

/-- const WALL: the fixed color layout (each row a cyclic shift), row-major. -/
def WALLROWS : List (List Tile) :=
  [[.AZUL, .YELLOW, .RED, .BLACK, .WHITE],
   [.WHITE, .AZUL, .YELLOW, .RED, .BLACK],
   [.BLACK, .WHITE, .AZUL, .YELLOW, .RED],
   [.RED, .BLACK, .WHITE, .AZUL, .YELLOW],
   [.YELLOW, .RED, .BLACK, .WHITE, .AZUL]]

/-- WALL[r][c].  The `getD` defaults are never taken: indices are in range. -/
def WALL (r c : Fin 5) : Tile := (WALLROWS.getD r.val []).getD c.val .AZUL

/-- The column of a tile color in a wall row:
`WALL[row_index].iter().position(|cell| cell == tile).unwrap()`.  The
position always exists (each row holds every color once), so the `getD 0`
default is never taken; `WALL_colOf` below certifies this. -/
def colOf (row : Fin 5) (t : Tile) : Fin 5 :=
  (((List.finRange 5).find? (fun c => WALL row c == t)).getD 0)

theorem WALL_colOf : ∀ (row : Fin 5) (t : Tile), WALL row (colOf row t) = t := by decide

namespace Wall

/-- Wall::new -/
def new : Wall := ⟨fun _ _ => false⟩

/-- Wall::len: the number of occupied cells. -/
def len (w : Wall) : Nat :=
  ∑ r : Fin 5, ∑ c : Fin 5, (if w.rows r c then 1 else 0)

/-- Wall::has_tile -/
def has_tile (w : Wall) (row : Fin 5) (t : Tile) : Bool := w.rows row (colOf row t)

/-- Occupancy at integer coordinates: the source's combined
`(0..5).contains(&y) && (0..5).contains(&x) && self.rows[y][x]` test
(out-of-range coordinates, including the usize-wrapped ones produced by
stepping left/up from 0, read as unoccupied). -/
def occ (w : Wall) (y x : Int) : Bool :=
  if h : 0 ≤ y ∧ y < 5 ∧ 0 ≤ x ∧ x < 5 then
    w.rows ⟨y.toNat, by omega⟩ ⟨x.toNat, by omega⟩
  else false

/-- The while-loop of Wall::count, with explicit fuel.  For the four unit
directions used by points_at, a walk starting in bounds leaves the grid
after at most 5 steps, so fuel 5 computes exactly the loop's count. -/
def countAux (w : Wall) : Nat → Int → Int → Int → Int → Nat
  | 0, _, _, _, _ => 0
  | n + 1, y, x, dx, dy => if w.occ y x then 1 + w.countAux n (y + dy) (x + dx) dx dy else 0

/-- Wall::count(position = (y, x), dx, dy). -/
def count (w : Wall) (y x dx dy : Int) : Nat := w.countAux 5 y x dx dy

/-- Wall::points_at.  The four directional counts each include the center
cell, hence the `- 3`; at every call site the center cell is occupied, so
each count is at least 1 and the usize subtraction cannot underflow. -/
def points_at (w : Wall) (colum_index row_index : Fin 5) : Nat :=
  w.count row_index colum_index 1 0 + w.count row_index colum_index (-1) 0 +
    w.count row_index colum_index 0 (-1) + w.count row_index colum_index 0 1 - 3

/-- Wall::bonus_points_at: +2 for a full row, +7 for a full column. -/
def bonus_points_at (w : Wall) (colum_index row_index : Fin 5) : Nat :=
  (if ∀ column : Fin 5, w.rows row_index column then 2 else 0) +
    (if ∀ row : Fin 5, w.rows row colum_index then 7 else 0)

/-- Setting one cell of the grid. -/
def setCell (w : Wall) (row col : Fin 5) : Wall :=
  ⟨fun r c => if r = row ∧ c = col then true else w.rows r c⟩

/-- Wall::add_tile.  `none` models the `assert!` panic when the target cell
is already occupied. -/
def add_tile (w : Wall) (row_index : Fin 5) (t : Tile) : Option (Wall × Nat) :=
  let colum_index := colOf row_index t
  if w.rows row_index colum_index then none
  else
    let w' := w.setCell row_index colum_index
    some (w', w'.points_at colum_index row_index + w'.bonus_points_at colum_index row_index)

end Wall

/-- fn discard_points: the per-tile penalty table 1,1,2,2,2 then 3 forever. -/
def discard_points (count : Nat) : Nat :=
  ((List.range count).map (fun i => if i < 5 then [1, 1, 2, 2, 2].getD i 0 else 3)).sum

/-- struct Player: staging rows, points, wall, discard pile. -/
structure Player : Type where
  rows : Fin 5 → Option (Tile × Nat)
  points : Nat
  wall : Wall
  discard : TileSet

namespace Player

/-- Player::new -/
def new : Player := ⟨fun _ => none, 0, Wall.new, TileSet.new⟩

/-- Player::maybe_place, returning the flag together with the updated player
(the Rust method mutates self; on a false return self is untouched).
The `row_size - *current_count` subtraction is Rust usize subtraction; it
cannot underflow as long as the row's fill never exceeds its capacity,
which holds in every state the engine produces (Nat subtraction truncates
instead). -/
def maybe_place (p : Player) (tile : Tile) (count : Nat) (row_index : Fin 5) :
    Bool × Player :=
  if p.wall.has_tile row_index tile then (false, p)
  else
    let row_size := (row_index : Nat) + 1
    match p.rows row_index with
    | some (current_tile, current_count) =>
        if current_tile ≠ tile then (false, p)
        else
          let space_left := row_size - current_count
          let discard_count := count - space_left
          (true,
            { p with
                rows := Function.update p.rows row_index
                  (some (current_tile, current_count + (count - discard_count)))
                discard := p.discard.add tile discard_count })
    | none =>
        let space_left := row_size
        let discard_count := count - space_left
        (true,
          { p with
              rows := Function.update p.rows row_index (some (tile, count - discard_count))
              discard := p.discard.add tile discard_count })

/-- The row-scoring loop of Player::prepare_next_round, iterated over the
row indices in order.  `none` models the add_tile assert panic. -/
def rowsLoop : List (Fin 5) → Player → TileSet → Option (Player × TileSet)
  | [], p, tray => some (p, tray)
  | i :: is, p, tray =>
      match p.rows i with
      | some (tile, count) =>
          if count = (i : Nat) + 1 then do
            let (w', pts) ← p.wall.add_tile i tile
            rowsLoop is
              { p with wall := w', points := p.points + pts,
                       rows := Function.update p.rows i none }
              (tray.add tile (count - 1))
          else rowsLoop is p tray
      | none => rowsLoop is p tray

/-- Player::prepare_next_round: score completed rows, apply the discard
penalty (saturating at zero), move the discard pile into the tray. -/
def prepare_next_round (p : Player) (tray : TileSet) : Option (Player × TileSet) := do
  let (p1, tray1) ← rowsLoop (List.finRange 5) p tray
  some ({ p1 with points := p1.points - discard_points p1.discard.len,
                  discard := TileSet.new },
        tray1.extend p1.discard)

/-- Player::tile_count: staged tiles + wall tiles + discard tiles (the
rows sum flattens the optional rows and sums their counts). -/
def tile_count (p : Player) : Nat :=
  (∑ i : Fin 5, ((p.rows i).map Prod.snd).getD 0) + p.wall.len + p.discard.len

end Player

/-- struct State: the full game snapshot. -/
structure State : Type where
  bag : TileSet
  factories : List TileSet
  center : TileSet
  tray : TileSet
  players : List Player
  moves : Nat

namespace State

/-- State::new: a bag of 20 tiles of each color, n fresh players. -/
def new (players : Nat) : State :=
  ⟨⟨20, 20, 20, 20, 20⟩, [], TileSet.new, TileSet.new,
   List.replicate players Player.new, 0⟩

/-- State::tile_count -/
def tile_count (s : State) : Nat :=
  s.bag.len + (s.factories.map TileSet.len).sum + s.center.len + s.tray.len +
    (s.players.map Player.tile_count).sum

/-- The factory-dealing loop of State::deal: draw 4 tiles and push a factory,
k times. -/
def dealLoop : Nat → State → RNG → Option (State × RNG)
  | 0, s, g => some (s, g)
  | k + 1, s, g => do
      let (tiles, bag', g') ← s.bag.draw g 4
      dealLoop k { s with bag := bag', factories := s.factories ++ [tiles] } g'

/-- State::deal: refill the bag from the tray if fewer than 4*n tiles remain,
then deal n fresh 4-tile factories, with n = 5 (a constant in the source,
with a TODO to compute it from the player count). -/
def deal (s : State) (g : RNG) : Option (State × RNG) :=
  let n := 5
  let s1 :=
    if s.bag.len < 4 * n then
      { s with bag := s.bag.extend s.tray, tray := TileSet.new }
    else s
  dealLoop n s1 g

/-- State::is_empty: factories and center hold no tiles. -/
def is_empty (s : State) : Bool :=
  (s.factories.map TileSet.len).sum + s.center.len = 0

/-- The per-player round-end loop of State::prepare_next_round, threading the
tray through the players in order. -/
def playersLoop : List Player → TileSet → Option (List Player × TileSet)
  | [], tray => some ([], tray)
  | p :: ps, tray => do
      let (p', tray') ← p.prepare_next_round tray
      let (ps', tray'') ← playersLoop ps tray'
      some (p' :: ps', tray'')

/-- State::prepare_next_round: when factories and center are empty, score all
players and re-deal; always advance the move counter. -/
def prepare_next_round (s : State) (g : RNG) : Option (State × RNG) :=
  if s.is_empty then do
    let (players', tray') ← playersLoop s.players s.tray
    let (s2, g') ← deal { s with players := players', tray := tray' } g
    some ({ s2 with moves := s2.moves + 1 }, g')
  else some ({ s with moves := s.moves + 1 }, g)

/-- State::is_game_over: some player has a fully occupied wall row. -/
def is_game_over (s : State) : Bool :=
  s.players.any (fun p =>
    (List.finRange 5).any (fun r => (List.finRange 5).all (fun c => p.wall.rows r c)))

/-- GameState::current_player = moves % players.len().  The Rust code panics
when there are no players (division by zero); in Lean `moves % 0 = moves`,
so theorems about arbitrary states carry `0 < s.players.length`. -/
def current_player (s : State) : Nat := s.moves % s.players.length

/-- Replace one player (players[i] = p). -/
def setPlayer (s : State) (i : Nat) (p : Player) : State :=
  { s with players := s.players.set i p }

/-- The row loop of State::place_all: one candidate child per row that
accepts the (tile, count) placement, each post-processed by
prepare_next_round (which consumes randomness when it re-deals). -/
def placeRows : List (Fin 5) → State → Tile → Nat → RNG → Option (List State × RNG)
  | [], _, _, _, g => some ([], g)
  | row :: rest, s, tile, count, g =>
      let player_index := s.current_player
      let (ok, p') := (s.players.getD player_index Player.new).maybe_place tile count row
      if ok then do
        let (child, g') ← (s.setPlayer player_index p').prepare_next_round g
        let (children, g'') ← placeRows rest s tile count g'
        some (child :: children, g'')
      else placeRows rest s tile count g

/-- State::place_all: place (tile, count) on each accepting row; if no row
accepts, the whole count goes to the player's discard (the sole child). -/
def place_all (s : State) (tile : Tile) (count : Nat) (g : RNG) :
    Option (List State × RNG) := do
  let (states, g') ← placeRows (List.finRange 5) s tile count g
  if states.isEmpty then
    let player_index := s.current_player
    let p := s.players.getD player_index Player.new
    let p' := { p with discard := p.discard.add tile count }
    let (child, g'') ← (s.setPlayer player_index p').prepare_next_round g'
    some ([child], g'')
  else some (states, g')

/-- The inner color loop of GameState::children for one factory: take all
tiles of one color, move the rest of the factory to the center, and place. -/
def tileLoop : List Tile → State → TileSet → RNG → Option (List State × RNG)
  | [], _, _, g => some ([], g)
  | t :: ts, stateF, factory, g =>
      let (count, factoryRest) := factory.drain t
      if count > 0 then do
        let s2 := { stateF with center := stateF.center.extend factoryRest }
        let (cs1, g') ← s2.place_all t count g
        let (cs2, g'') ← tileLoop ts stateF factory g'
        some (cs1 ++ cs2, g'')
      else tileLoop ts stateF factory g

/-- The outer factory loop of GameState::children: for each factory index,
remove that factory and run the color loop. -/
def factoryLoop : List Nat → State → RNG → Option (List State × RNG)
  | [], _, g => some ([], g)
  | fi :: fis, s, g => do
      let stateF := { s with factories := s.factories.eraseIdx fi }
      let factory := s.factories.getD fi TileSet.new
      let (cs1, g') ← tileLoop TILES stateF factory g
      let (cs2, g'') ← factoryLoop fis s g'
      some (cs1 ++ cs2, g'')

/-- The center loop of GameState::children: take all tiles of one color from
the center. -/
def centerLoop : List Tile → State → RNG → Option (List State × RNG)
  | [], _, g => some ([], g)
  | t :: ts, s, g =>
      let (count, center') := s.center.drain t
      if count > 0 then do
        let (cs1, g') ← ({ s with center := center' }).place_all t count g
        let (cs2, g'') ← centerLoop ts s g'
        some (cs1 ++ cs2, g'')
      else centerLoop ts s g

/-- GameState::children: every successor state of a drafting action. -/
def children (s : State) (g : RNG) : Option (List State × RNG) := do
  let (cs1, g') ← factoryLoop (List.range s.factories.length) s g
  let (cs2, g'') ← centerLoop TILES s g'
  some (cs1 ++ cs2, g'')

/-- GameState::winner: once the game is over, the maximum point total. -/
def winner (s : State) : Option Nat :=
  if s.is_game_over then (s.players.map Player.points).max? else none

/-- State::self_check: `none` models the panic on a tile count other than
100. -/
def self_check (s : State) : Option Unit :=
  if s.tile_count = 100 then some () else none

end State

/-- i32::MAX -/
def i32max : Int := 2 ^ 31 - 1

/-- i32::MIN -/
def i32min : Int := -(2 ^ 31)

/-- The value of `n as i32` for a usize n (wrapping conversion). -/
def i32ofNat (n : Nat) : Int :=
  let r : Nat := n % 2 ^ 32
  if r < 2 ^ 31 then (r : Int) else (r : Int) - 2 ^ 32

/-- trait Evaluation: leaf scoring plus the optional move-ordering hook.
The `update` caching hook is never consulted by the search (its only call
is commented out in the source), so it is not modelled.  The trait contract
allows `heuristic` to reorder, but not modify, the child list. -/
structure Evaluation : Type where
  evaulate : State → Nat → Int
  heuristic : List State → List State

/-- struct Fish: the basic evaluator, scoring a state as the chosen player's
points (`points as i32`); its heuristic hook is a no-op (the reordering code
is commented out).  The cache only feeds `update`, which the search never
reads, so it does not affect any result. -/
def Fish : Evaluation :=
  ⟨fun s player => i32ofNat ((s.players.getD player Player.new).points), id⟩

/-- The maximizing loop of fn minmax: fold over the children, updating the
best value and index whenever the new value is ≥ the current best, breaking
on `best_value > beta`, and raising alpha to the best value seen.  `f` is
the recursive evaluation of one child. -/
def maxLoop (f : State → RNG → Int → Int → Option (Int × RNG)) :
    List State → Nat → RNG → Int → Int → Int → Option Nat →
      Option ((Option Nat × Int) × RNG)
  | [], _, g, _, _, best_value, best_index => some ((best_index, best_value), g)
  | child :: rest, index, g, alpha, beta, best_value, best_index => do
      let (new_value, g') ← f child g alpha beta
      let (best_value', best_index') :=
        if new_value ≥ best_value then (new_value, some index) else (best_value, best_index)
      if best_value' > beta then some ((best_index', best_value'), g')
      else maxLoop f rest (index + 1) g' (max alpha best_value') beta best_value' best_index'

/-- The minimizing loop of fn minmax, symmetric to maxLoop: update on ≤,
break on `best_value < alpha`, lower beta to the best value seen. -/
def minLoop (f : State → RNG → Int → Int → Option (Int × RNG)) :
    List State → Nat → RNG → Int → Int → Int → Option Nat →
      Option ((Option Nat × Int) × RNG)
  | [], _, g, _, _, best_value, best_index => some ((best_index, best_value), g)
  | child :: rest, index, g, alpha, beta, best_value, best_index => do
      let (new_value, g') ← f child g alpha beta
      let (best_value', best_index') :=
        if new_value ≤ best_value then (new_value, some index) else (best_value, best_index)
      if best_value' < alpha then some ((best_index', best_value'), g')
      else minLoop f rest (index + 1) g' alpha (min beta best_value') best_value' best_index'

/-- fn minmax: depth-bounded alpha-beta search, returning the chosen child
index (None at leaves and terminal states) and the node value.  Structured
by recursion on depth; the loops over children are maxLoop/minLoop. -/
def minmax (E : Evaluation) : Nat → State → RNG → Nat → Int → Int →
    Option ((Option Nat × Int) × RNG)
  | 0, s, g, _, _, _ => some ((none, E.evaulate s s.current_player), g)
  | depth + 1, s, g, player, alpha, beta =>
      match s.winner with
      | some w =>
          some ((none, if w = player then i32max else i32min), g)
      | none => do
          let (cs, g') ← s.children g
          let cs := E.heuristic cs
          if s.current_player = player then
            maxLoop
              (fun child gc a b => (minmax E depth child gc player a b).map
                (fun r => (r.1.2, r.2)))
              cs 0 g' alpha beta i32min none
          else
            minLoop
              (fun child gc a b => (minmax E depth child gc player a b).map
                (fun r => (r.1.2, r.2)))
              cs 0 g' alpha beta i32max none

/-- fn search: run minmax from the root, then regenerate the children (with
further-consumed randomness) and index into them.  The outer `none` models a
panic; an inner `none` in the result is Rust's `None` return (no index). -/
def search (E : Evaluation) (s : State) (g : RNG) (depth : Nat) :
    Option (Option State × RNG) := do
  let player := s.current_player
  let ((index?, _), g1) ← minmax E depth s g player i32min i32max
  match index? with
  | none => some (none, g1)
  | some index => do
      let (children, g2) ← s.children g1
      match children.get? index with
      | some child => some (some child, g2)
      | none => none

/-- fn random_move: regenerate the children and choose one uniformly;
`children.choose(rng).unwrap()` panics (outer `none`) when there are no
children.  The uniform choice is modelled by one consumed random value
reduced modulo the list length. -/
def random_move (s : State) (g : RNG) : Option (State × RNG) := do
  let (children, g') ← s.children g
  if children.isEmpty then none
  else some (children.getD (g' 0 % children.length) s, g'.tail)

/-! ## Basic facts about tile multisets -/

namespace TileSet

theorem get_le_len (ts : TileSet) (t : Tile) : ts.get t ≤ ts.len := by
  cases t <;> simp [get, len] <;> omega

theorem len_set_zero (ts : TileSet) (t : Tile) : (ts.set t 0).len + ts.get t = ts.len := by
  cases t <;> simp [get, set, len] <;> omega

theorem len_add (ts : TileSet) (t : Tile) (n : Nat) : (ts.add t n).len = ts.len + n := by
  cases t <;> simp [get, set, add, len] <;> omega

theorem get_add (ts : TileSet) (t : Tile) (n : Nat) :
    (ts.add t n).get t = ts.get t + n := by
  cases t <;> simp [get, set, add]

theorem len_push (ts : TileSet) (t : Tile) : (ts.push t).len = ts.len + 1 :=
  len_add ts t 1

theorem len_extend (ts other : TileSet) : (ts.extend other).len = ts.len + other.len := by
  simp [extend, len]; omega

theorem get_pick_pos (ts : TileSet) (r : Nat) (h : r < ts.len) :
    0 < ts.get (ts.pick r) := by
  unfold pick
  unfold len at h
  split_ifs <;> simp [get] <;> omega

theorem len_set_sub_one (ts : TileSet) (t : Tile) (hpos : 0 < ts.get t) :
    (ts.set t (ts.get t - 1)).len + 1 = ts.len := by
  cases t <;> simp [get, set, len] at hpos ⊢ <;> omega

theorem draw_one_spec (ts : TileSet) (g : RNG) (t : Tile) (ts' : TileSet) (g' : RNG)
    (h : ts.draw_one g = some (t, ts', g')) : ts'.len + 1 = ts.len := by
  unfold draw_one at h
  split at h
  · exact absurd h (by simp)
  · next hne =>
    have hlen : 0 < ts.len := Nat.pos_of_ne_zero hne
    have hr : g 0 % ts.len < ts.len := Nat.mod_lt _ hlen
    have hpos := ts.get_pick_pos _ hr
    simp only [Option.some.injEq, Prod.mk.injEq] at h
    obtain ⟨ht, hts, _⟩ := h
    subst ht
    subst hts
    exact ts.len_set_sub_one _ hpos

theorem draw_one_isSome (ts : TileSet) (g : RNG) :
    (ts.draw_one g).isSome = true ↔ 0 < ts.len := by
  unfold draw_one
  split <;> simp <;> omega

theorem drawAux_spec : ∀ (n : Nat) (acc ts : TileSet) (g : RNG) (out ts' : TileSet)
    (g' : RNG), drawAux n acc ts g = some (out, ts', g') →
    out.len = acc.len + n ∧ ts'.len + n = ts.len
  | 0, acc, ts, g, out, ts', g', h => by
      simp [drawAux] at h
      obtain ⟨h1, h2, _⟩ := h
      subst h1; subst h2; omega
  | n + 1, acc, ts, g, out, ts', g', h => by
      simp [drawAux, Option.bind_eq_some] at h
      obtain ⟨t, ts1, g1, h1, h2⟩ := h
      have hone := ts.draw_one_spec g t ts1 g1 h1
      have hrec := drawAux_spec n (acc.push t) ts1 g1 out ts' g' h2
      rw [acc.len_push t] at hrec
      omega

theorem draw_spec (ts : TileSet) (g : RNG) (n : Nat) (out ts' : TileSet) (g' : RNG)
    (h : ts.draw g n = some (out, ts', g')) : out.len = n ∧ ts'.len + n = ts.len := by
  have := drawAux_spec n TileSet.new ts g out ts' g' h
  simpa [TileSet.new, TileSet.len] using this

theorem drawAux_isSome : ∀ (n : Nat) (acc ts : TileSet) (g : RNG),
    (drawAux n acc ts g).isSome = true ↔ n ≤ ts.len
  | 0, acc, ts, g => by simp [drawAux]
  | n + 1, acc, ts, g => by
      unfold drawAux draw_one
      split
      · next hz => simp at hz ⊢; omega
      · next hz =>
        have hlen : 0 < ts.len := Nat.pos_of_ne_zero hz
        have hr : g 0 % ts.len < ts.len := Nat.mod_lt _ hlen
        simp only [Option.bind_eq_bind, Option.some_bind]
        have hpos := ts.get_pick_pos _ hr
        have hlen1 := ts.len_set_sub_one _ hpos
        rw [drawAux_isSome n _ _ _]
        omega

end TileSet

/-! ## Reachability and concrete test states -/

/-- The states the program actually visits: a fresh n-player game after its
initial deal, closed under taking a successor produced by children (with any
random source; panicking executions produce no state). -/
inductive Reachable (n : Nat) : State → Prop
  | dealt : ∀ (g : RNG) (s' : State) (g' : RNG),
      (State.new n).deal g = some (s', g') → Reachable n s'
  | step : ∀ (s : State) (g : RNG) (cs : List State) (g' : RNG) (c : State),
      Reachable n s → s.children g = some (cs, g') → c ∈ cs → Reachable n c

/-- A one-player test state with two colors in the center and nothing else
in play (used for concrete evaluations; not a full game). -/
def sCenter : State :=
  ⟨TileSet.new, [], ⟨1, 1, 0, 0, 0⟩, TileSet.new, [Player.new], 0⟩

/-- A test state whose single player has completed wall row 0 with 7 points:
a game-over position. -/
def sOver : State :=
  ⟨TileSet.new, [], TileSet.new, TileSet.new,
   [⟨fun _ => none, 7, ⟨fun r _ => r = 0⟩, TileSet.new⟩], 0⟩

/-! ## C10: empty factories and center -/

theorem tileLoop_empty (stateF : State) (factory : TileSet)
    (hf : ∀ t, factory.get t = 0) :
    ∀ (ts : List Tile) (g : RNG), State.tileLoop ts stateF factory g = some ([], g) := by
  intro ts
  induction ts with
  | nil => intro g; rfl
  | cons t rest ih =>
      intro g
      simp only [State.tileLoop, TileSet.drain, hf t]
      exact ih g

theorem getD_len_zero (l : List TileSet) (h : ∀ f ∈ l, f.len = 0) (i : Nat) :
    (l.getD i TileSet.new).len = 0 := by
  rcases hi : l[i]? with _ | f
  · simp [List.getD, hi, TileSet.new, TileSet.len]
  · have hmem : f ∈ l := List.getElem?_mem hi
    simp [List.getD, hi]
    exact h f hmem

theorem factoryLoop_empty (s : State) (hf : ∀ f ∈ s.factories, f.len = 0) :
    ∀ (fis : List Nat) (g : RNG), State.factoryLoop fis s g = some ([], g) := by
  intro fis
  induction fis with
  | nil => intro g; rfl
  | cons fi rest ih =>
      intro g
      have hlen : (s.factories.getD fi TileSet.new).len = 0 := getD_len_zero _ hf fi
      have hget : ∀ t, (s.factories.getD fi TileSet.new).get t = 0 := fun t =>
        Nat.le_zero.mp (hlen ▸ TileSet.get_le_len _ t)
      show ((State.tileLoop TILES _ (s.factories.getD fi TileSet.new) g).bind _) = _
      rw [tileLoop_empty _ _ hget]
      simp [ih g]

theorem centerLoop_empty (s : State) (hc : ∀ t, s.center.get t = 0) :
    ∀ (ts : List Tile) (g : RNG), State.centerLoop ts s g = some ([], g) := by
  intro ts
  induction ts with
  | nil => intro g; rfl
  | cons t rest ih =>
      intro g
      simp only [State.centerLoop, TileSet.drain, hc t]
      exact ih g

/-- C10: on a state whose factories and center are all empty (e.g. a freshly
constructed game before any deal), children returns the empty list of
successors, and random_move panics (modelled `none`) instead of returning a
value. -/
theorem children_empty_random_move_panics (s : State) (g : RNG)
    (h : s.is_empty = true) :
    s.children g = some ([], g) ∧ random_move s g = none := by
  have hsum : (s.factories.map TileSet.len).sum + s.center.len = 0 := by
    simpa [State.is_empty] using h
  have hf : ∀ f ∈ s.factories, f.len = 0 := by
    intro f hmem
    have : (s.factories.map TileSet.len).sum = 0 := by omega
    exact List.sum_eq_zero_iff.mp this _ (List.mem_map_of_mem _ hmem)
  have hc : ∀ t, s.center.get t = 0 := fun t => by
    have h1 : s.center.len = 0 := by omega
    exact Nat.le_zero.mp (h1 ▸ TileSet.get_le_len _ t)
  have hch : s.children g = some ([], g) := by
    simp [State.children, factoryLoop_empty s hf, centerLoop_empty s hc]
  refine ⟨hch, ?_⟩
  simp [random_move, hch]

/-- C10 witness: the freshly constructed two-player game is such a state. -/
theorem children_empty_random_move_panics_witness :
    (State.new 2).children zeroRng = some ([], zeroRng) ∧
      random_move (State.new 2) zeroRng = none :=
  children_empty_random_move_panics (State.new 2) zeroRng rfl

/-! ## C3: game-over sentinel in minmax -/

/-- C3: minmax at positive depth on a finished game returns the saturating
sentinel relative to the fixed maximizing player handed down from the root:
i32::MAX when the winner value equals that player, i32::MIN otherwise.  (The
node's current mover plays no role in this branch.) -/
theorem minmax_gameover_sentinel (E : Evaluation) (depth : Nat) (s : State)
    (g : RNG) (player : Nat) (alpha beta : Int) (w : Nat)
    (h : s.winner = some w) :
    minmax E (depth + 1) s g player alpha beta =
      some ((none, if w = player then i32max else i32min), g) := by
  simp [minmax, h]

/-- C3 witness: on the concrete finished game sOver (winner value 7), the
sentinel is i32::MAX for player 7 and i32::MIN for player 0. -/
theorem minmax_gameover_sentinel_witness :
    minmax Fish 1 sOver zeroRng 7 i32min i32max = some ((none, i32max), zeroRng) ∧
      minmax Fish 1 sOver zeroRng 0 i32min i32max = some ((none, i32min), zeroRng) := by
  constructor
  · simpa using minmax_gameover_sentinel Fish 0 sOver zeroRng 7 i32min i32max 7 (by rfl)
  · simpa using minmax_gameover_sentinel Fish 0 sOver zeroRng 0 i32min i32max 7 (by rfl)

/-! ## C4: winner is defined iff some wall row is complete, and is the
maximum point total -/

theorem is_game_over_iff (s : State) :
    s.is_game_over = true ↔
      ∃ p ∈ s.players, ∃ r : Fin 5, ∀ c : Fin 5, p.wall.rows r c = true := by
  simp [State.is_game_over, List.any_eq_true, List.all_eq_true, List.mem_finRange]

/-- C4: winner() is Some exactly when some player has a fully occupied wall
row; the returned value is then attained by some player and bounds every
player's points (i.e. it is the maximum point total). -/
theorem winner_spec (s : State) :
    ((s.winner).isSome = true ↔
       ∃ p ∈ s.players, ∃ r : Fin 5, ∀ c : Fin 5, p.wall.rows r c = true) ∧
      ∀ v, s.winner = some v →
        (∃ p ∈ s.players, p.points = v) ∧ ∀ p ∈ s.players, p.points ≤ v := by
  constructor
  · rw [← is_game_over_iff]
    unfold State.winner
    split
    · next hgo =>
      simp only [hgo, iff_true]
      have hne : s.players ≠ [] := by
        intro hnil
        simp [State.is_game_over, hnil] at hgo
      simp only [Option.isSome_iff_ne_none, ne_eq, List.max?_eq_none_iff]
      simp [hne]
    · next hgo => simp at hgo ⊢; exact hgo
  · intro v hv
    unfold State.winner at hv
    split at hv
    · have hmax := (List.max?_eq_some_iff (α := Nat) Nat.le_refl max_choice
        (fun a b c => Nat.max_le)).mp hv
      obtain ⟨hmem, hle⟩ := hmax
      constructor
      · obtain ⟨p, hp, hpv⟩ := List.mem_map.mp hmem
        exact ⟨p, hp, hpv⟩
      · intro p hp
        exact hle _ (List.mem_map_of_mem _ hp)
    · exact absurd hv (by simp)

/-- C4 witness: concrete evaluations on a finished and an unfinished game. -/
theorem winner_spec_witness :
    (∃ p ∈ sOver.players, p.points = 7) ∧ (State.new 2).winner = none := by
  constructor
  · exact ((winner_spec sOver).2 7 rfl).1
  · have h := (winner_spec (State.new 2)).1
    rcases hw : (State.new 2).winner with _ | v
    · rfl
    · exfalso
      have : ((State.new 2).winner).isSome = true := by rw [hw]; rfl
      obtain ⟨p, hp, r, hr⟩ := h.mp this
      have hp' : p = Player.new := by
        simpa [State.new] using List.eq_of_mem_replicate hp
      subst hp'
      simpa [Player.new, Wall.new] using hr 0

/-! ## C7: the discard penalty -/

/-- Specification-side per-tile discard cost: 1 for the first two discarded
tiles, 2 for the next three, 3 for every further tile. -/
def perTileCost (i : Nat) : Nat := if i ≤ 1 then 1 else if i ≤ 4 then 2 else 3

theorem discard_points_succ (n : Nat) :
    discard_points (n + 1) = discard_points n + perTileCost n := by
  unfold discard_points
  rw [List.range_succ, List.map_append, List.sum_append]
  rcases n with _ | _ | _ | _ | _ | m <;> simp [perTileCost]

theorem discard_points_eq_sum (n : Nat) :
    discard_points n = ∑ i ∈ Finset.range n, perTileCost i := by
  induction n with
  | zero => rfl
  | succ m ih => rw [discard_points_succ, Finset.sum_range_succ, ih]

theorem rowsLoop_no_complete (p : Player) :
    ∀ (is : List (Fin 5)) (tray : TileSet),
      (∀ i t c, p.rows i = some (t, c) → c ≠ (i : Nat) + 1) →
      Player.rowsLoop is p tray = some (p, tray) := by
  intro is
  induction is with
  | nil => intro tray _; rfl
  | cons i rest ih =>
      intro tray hno
      unfold Player.rowsLoop
      rcases hrow : p.rows i with _ | ⟨t, c⟩
      · exact ih tray hno
      · have := hno i t c hrow
        simp only [this, if_false]
        exact ih tray hno

/-- C7: when no staging row is complete, Player::prepare_next_round leaves
the points at points minus the discard penalty, computed from the per-tile
cost schedule 1,1,2,2,2,3,3,… and saturating at zero (Nat subtraction); in
particular 4 discarded tiles cost exactly 1+1+2+2 = 6 points. -/
theorem discard_penalty (p : Player) (tray : TileSet)
    (hno : ∀ i t c, p.rows i = some (t, c) → c ≠ (i : Nat) + 1) :
    ∃ p' tray', p.prepare_next_round tray = some (p', tray') ∧
      p'.points = p.points - discard_points p.discard.len ∧
      (∀ n, discard_points n = ∑ i ∈ Finset.range n, perTileCost i) ∧
      discard_points 4 = 6 ∧
      (p.discard.len = 4 → p'.points = p.points - 6) := by
  have hprep : p.prepare_next_round tray =
      some ({ p with
                points := p.points - discard_points p.discard.len,
                discard := TileSet.new }, tray.extend p.discard) := by
    unfold Player.prepare_next_round
    rw [rowsLoop_no_complete p _ tray hno]
    rfl
  refine ⟨_, _, hprep, rfl, discard_points_eq_sum, rfl, ?_⟩
  intro h4
  show p.points - discard_points p.discard.len = p.points - 6
  rw [h4]
  rfl

/-- C7 witness: a concrete player with 4 discarded tiles, no completed rows
and 10 points ends the round with 10 - 6 = 4 points. -/
theorem discard_penalty_witness :
    ∃ p' tray', Player.prepare_next_round
        ⟨fun _ => none, 10, Wall.new, ⟨2, 2, 0, 0, 0⟩⟩ TileSet.new = some (p', tray') ∧
      p'.points = 4 := by
  obtain ⟨p', tray', h1, h2, -, -, h5⟩ :=
    discard_penalty ⟨fun _ => none, 10, Wall.new, ⟨2, 2, 0, 0, 0⟩⟩ TileSet.new
      (by intro i t c h; simp at h)
  refine ⟨p', tray', h1, ?_⟩
  rw [h5 (by rfl)]
  rfl

/-! ## C5: maybe_place -/

/-- The fill count of a staging row (0 when the row is unused). -/
def rowFill (p : Player) (row : Fin 5) : Nat := ((p.rows row).map Prod.snd).getD 0

/-- C5: maybe_place returns false exactly when the wall already holds the
color in that row's fixed column or the row holds a different color; on a
true return (and a row currently within capacity) the fill grows by
min(count, remaining capacity), the discard pile receives the remainder,
the two additions sum to count, and the fill stays within capacity
row_index + 1. -/
theorem maybe_place_spec (p : Player) (tile : Tile) (count : Nat) (row : Fin 5) :
    ((p.maybe_place tile count row).1 = false ↔
      (p.wall.has_tile row tile = true ∨
        ∃ t' c, p.rows row = some (t', c) ∧ t' ≠ tile)) ∧
    (rowFill p row ≤ (row : Nat) + 1 → (p.maybe_place tile count row).1 = true →
      (rowFill (p.maybe_place tile count row).2 row =
          rowFill p row + min count (((row : Nat) + 1) - rowFill p row) ∧
        ((p.maybe_place tile count row).2).discard.get tile =
          p.discard.get tile + (count - min count (((row : Nat) + 1) - rowFill p row)) ∧
        (rowFill (p.maybe_place tile count row).2 row - rowFill p row) +
            (((p.maybe_place tile count row).2).discard.get tile - p.discard.get tile) =
          count ∧
        rowFill (p.maybe_place tile count row).2 row ≤ (row : Nat) + 1)) := by
  by_cases hwall : p.wall.has_tile row tile = true
  · have hval : p.maybe_place tile count row = (false, p) := by
      simp [Player.maybe_place, hwall]
    rw [hval]
    refine ⟨⟨fun _ => Or.inl hwall, fun _ => rfl⟩, ?_⟩
    intro _ habs
    exact absurd habs (by simp)
  · have hwall' : p.wall.has_tile row tile = false := by
      simpa using hwall
    rcases hrow : p.rows row with _ | ⟨t', c⟩
    · have hval : p.maybe_place tile count row =
          (true, { p with
                     rows := Function.update p.rows row
                       (some (tile, count - (count - ((row : Nat) + 1)))),
                     discard := p.discard.add tile (count - ((row : Nat) + 1)) }) := by
        simp [Player.maybe_place, hwall', hrow]
      rw [hval]
      constructor
      · constructor
        · intro habs; exact absurd habs (by simp)
        · rintro (h | ⟨t', c', heq, _⟩)
          · exact absurd h hwall
          · exact absurd heq (by simp)
      · intro hcap _
        simp only [rowFill, hrow, Function.update_same, TileSet.get_add,
          Option.map_some', Option.map_none', Option.getD_some, Option.getD_none] at hcap ⊢
        refine ⟨by omega, by omega, by omega, by omega⟩
    · by_cases ht' : t' = tile
      · subst ht'
        have hval : p.maybe_place t' count row =
            (true, { p with
                       rows := Function.update p.rows row
                         (some (t', c + (count - (count - (((row : Nat) + 1) - c))))),
                       discard := p.discard.add t'
                         (count - (((row : Nat) + 1) - c)) }) := by
          simp [Player.maybe_place, hwall', hrow]
        rw [hval]
        constructor
        · constructor
          · intro habs; exact absurd habs (by simp)
          · rintro (h | ⟨t'', c', heq, hne⟩)
            · exact absurd h hwall
            · simp only [Option.some.injEq, Prod.mk.injEq] at heq
              exact absurd heq.1.symm hne
        · intro hcap _
          simp only [rowFill, hrow, Function.update_same, TileSet.get_add,
            Option.map_some', Option.map_none', Option.getD_some, Option.getD_none] at hcap ⊢
          refine ⟨by omega, by omega, by omega, by omega⟩
      · have hval : p.maybe_place tile count row = (false, p) := by
          simp [Player.maybe_place, hwall', hrow, ht']
        rw [hval]
        refine ⟨⟨fun _ => Or.inr ⟨t', c, rfl, ht'⟩, fun _ => rfl⟩, ?_⟩
        intro _ habs
        exact absurd habs (by simp)

/-- C5 witness: placing 3 black tiles on empty row 1 of a fresh player fills
the row to 2 and discards 1. -/
theorem maybe_place_spec_witness :
    (Player.new.maybe_place Tile.BLACK 3 1).1 = true ∧
      rowFill (Player.new.maybe_place Tile.BLACK 3 1).2 1 = 0 + min 3 (1 + 1 - 0) ∧
      ((Player.new.maybe_place Tile.BLACK 3 1).2).discard.get Tile.BLACK =
        0 + (3 - min 3 (1 + 1 - 0)) := by
  have h := (maybe_place_spec Player.new Tile.BLACK 3 1).2 (by decide) (by decide)
  exact ⟨by decide, h.1, h.2.1⟩

/-! ## C8: deal refills from the tray when needed and appends 4-tile
factories -/

theorem dealLoop_spec : ∀ (k : Nat) (s : State) (g : RNG) (s' : State) (g' : RNG),
    State.dealLoop k s g = some (s', g') →
    ∃ fs, s'.factories = s.factories ++ fs ∧ fs.length = k ∧
      (∀ f ∈ fs, f.len = 4) ∧ s'.bag.len + 4 * k = s.bag.len ∧
      s'.center = s.center ∧ s'.tray = s.tray ∧ s'.players = s.players ∧
      s'.moves = s.moves
  | 0, s, g, s', g', h => by
      simp only [State.dealLoop, Option.some.injEq, Prod.mk.injEq] at h
      obtain ⟨h1, _⟩ := h
      subst h1
      exact ⟨[], by simp⟩
  | k + 1, s, g, s', g', h => by
      unfold State.dealLoop at h
      rcases hdraw : s.bag.draw g 4 with _ | ⟨tiles, bag', g1⟩
      · rw [hdraw] at h
        exact absurd h (by simp)
      · rw [hdraw] at h
        simp only [Option.some_bind] at h
        obtain ⟨hlen4, hbag⟩ := s.bag.draw_spec g 4 tiles bag' g1 hdraw
        obtain ⟨fs, hfact, hfslen, hfall, hbag', hcenter, htray, hplayers, hmoves⟩ :=
          dealLoop_spec k _ g1 s' g' h
        refine ⟨tiles :: fs, ?_, by simp [hfslen], ?_, ?_, hcenter, htray, hplayers,
          hmoves⟩
        · simpa using hfact
        · intro f hf
          rcases List.mem_cons.mp hf with hm | hm
          · rw [hm]; exact hlen4
          · exact hfall f hm
        · simp at hbag'
          omega

/-- C8: whenever deal succeeds, it first moved the tray into the bag exactly
when the bag held fewer than the 4·5 tiles needed for the re-deal, and it
appended one freshly drawn factory of exactly 4 tiles per expected factory
slot — the number of slots being the source's (constant) function of the
player count, 5. -/
theorem deal_spec (s : State) (g : RNG) (s' : State) (g' : RNG)
    (h : s.deal g = some (s', g')) :
    (s.bag.len < 4 * 5 →
      s'.tray = TileSet.new ∧ s'.bag.len + 4 * 5 = s.bag.len + s.tray.len) ∧
    (¬ s.bag.len < 4 * 5 → s'.tray = s.tray ∧ s'.bag.len + 4 * 5 = s.bag.len) ∧
    (∃ fs, s'.factories = s.factories ++ fs ∧ fs.length = 5 ∧ ∀ f ∈ fs, f.len = 4) := by
  unfold State.deal at h
  dsimp only at h
  by_cases hlow : s.bag.len < 4 * 5
  · rw [if_pos hlow] at h
    obtain ⟨fs, hfact, hfslen, hfall, hbag, _, htray, _, _⟩ :=
      dealLoop_spec 5 _ g s' g' h
    simp only [TileSet.len_extend] at hbag
    exact ⟨fun _ => ⟨htray, by omega⟩, fun hc => absurd hlow hc,
      fs, hfact, hfslen, hfall⟩
  · rw [if_neg hlow] at h
    obtain ⟨fs, hfact, hfslen, hfall, hbag, _, htray, _, _⟩ :=
      dealLoop_spec 5 _ g s' g' h
    exact ⟨fun hc => absurd hc hlow, fun _ => ⟨htray, by omega⟩,
      fs, hfact, hfslen, hfall⟩

/-- C8 witness: dealing on a fresh two-player game (bag of 100, no tray
move needed) appends five 4-tile factories. -/
theorem deal_spec_witness :
    ∃ s' g', (State.new 2).deal zeroRng = some (s', g') ∧
      ∃ fs, s'.factories = [] ++ fs ∧ fs.length = 5 ∧ ∀ f ∈ fs, f.len = 4 := by
  refine ⟨⟨⟨0, 20, 20, 20, 20⟩,
    [⟨4, 0, 0, 0, 0⟩, ⟨4, 0, 0, 0, 0⟩, ⟨4, 0, 0, 0, 0⟩, ⟨4, 0, 0, 0, 0⟩, ⟨4, 0, 0, 0, 0⟩],
    TileSet.new, TileSet.new, List.replicate 2 Player.new, 0⟩, zeroRng, by rfl, ?_⟩
  exact (deal_spec (State.new 2) zeroRng _ zeroRng (by rfl)).2.2

/-! ## C6: the score returned by add_tile -/

/-- Extend a 5-cell line to integer coordinates, reading out-of-range cells
as unoccupied (the bounds test of Wall::count restricted to one axis). -/
def lineWrap (b : Fin 5 → Bool) (z : Int) : Bool :=
  if h : 0 ≤ z ∧ z < 5 then b ⟨z.toNat, by omega⟩ else false

/-- The one-axis version of the Wall::count while-loop. -/
def lineCount (v : Int → Bool) : Nat → Int → Int → Nat
  | 0, _, _ => 0
  | n + 1, z, dz => if v z then 1 + lineCount v n (z + dz) dz else 0

/-- The contiguous run through cell c of a 5-cell line: the number of cells
e such that every cell between c and e (inclusive) is occupied. -/
def runCard (b : Fin 5 → Bool) (c : Fin 5) : Nat :=
  (Finset.univ.filter fun e : Fin 5 =>
    ∀ t : Fin 5, min c e ≤ t → t ≤ max c e → b t = true).card

/-- The horizontal run length through cell (r, c). -/
def hRun (w : Wall) (r c : Fin 5) : Nat := runCard (w.rows r) c

/-- The vertical run length through cell (r, c). -/
def vRun (w : Wall) (r c : Fin 5) : Nat := runCard (fun i => w.rows i c) r

theorem lineCount_runCard : ∀ (b : Fin 5 → Bool) (c : Fin 5), b c = true →
    lineCount (lineWrap b) 5 c 1 + lineCount (lineWrap b) 5 c (-1) =
      runCard b c + 1 := by decide

theorem runCard_pos : ∀ (b : Fin 5 → Bool) (c : Fin 5), b c = true →
    1 ≤ runCard b c := by decide

theorem occ_row (w : Wall) (r : Fin 5) (z : Int) :
    w.occ r z = lineWrap (w.rows r) z := by
  have hr0 : (0 : Int) ≤ (r : Nat) := Int.ofNat_nonneg _
  have hr5 : ((r : Nat) : Int) < 5 := by exact_mod_cast r.isLt
  unfold Wall.occ lineWrap
  by_cases hz : 0 ≤ z ∧ z < 5
  · rw [dif_pos ⟨hr0, hr5, hz.1, hz.2⟩, dif_pos hz]
    congr 1
  · rw [dif_neg (fun hc => hz ⟨hc.2.2.1, hc.2.2.2⟩), dif_neg hz]

theorem occ_col (w : Wall) (c : Fin 5) (z : Int) :
    w.occ z c = lineWrap (fun i => w.rows i c) z := by
  have hc0 : (0 : Int) ≤ (c : Nat) := Int.ofNat_nonneg _
  have hc5 : ((c : Nat) : Int) < 5 := by exact_mod_cast c.isLt
  unfold Wall.occ lineWrap
  by_cases hz : 0 ≤ z ∧ z < 5
  · rw [dif_pos ⟨hz.1, hz.2, hc0, hc5⟩, dif_pos hz]
    congr 1
  · rw [dif_neg (fun hc => hz ⟨hc.1, hc.2.1⟩), dif_neg hz]

theorem countAux_row (w : Wall) (r : Fin 5) :
    ∀ (k : Nat) (x dx : Int),
      w.countAux k r x dx 0 = lineCount (lineWrap (w.rows r)) k x dx
  | 0, x, dx => rfl
  | k + 1, x, dx => by
      unfold Wall.countAux lineCount
      rw [occ_row, add_zero, countAux_row w r k (x + dx) dx]

theorem countAux_col (w : Wall) (c : Fin 5) :
    ∀ (k : Nat) (y dy : Int),
      w.countAux k y c 0 dy = lineCount (lineWrap (fun i => w.rows i c)) k y dy
  | 0, y, dy => rfl
  | k + 1, y, dy => by
      unfold Wall.countAux lineCount
      rw [occ_col, add_zero, countAux_col w c k (y + dy) dy]

theorem points_at_eq (w : Wall) (r c : Fin 5) (h : w.rows r c = true) :
    w.points_at c r = hRun w r c + vRun w r c - 1 := by
  unfold Wall.points_at Wall.count
  rw [countAux_row w r 5 c 1, countAux_row w r 5 c (-1),
    countAux_col w c 5 r (-1), countAux_col w c 5 r 1]
  have hh := lineCount_runCard (w.rows r) c h
  have hv := lineCount_runCard (fun i => w.rows i c) r h
  have hh1 := runCard_pos (w.rows r) c h
  have hv1 := runCard_pos (fun i => w.rows i c) r h
  unfold hRun vRun
  omega

/-- C6: on an unoccupied target cell, add_tile succeeds and returns
(horizontal run through the cell) + (vertical run through the cell) − 1,
plus 2 if the cell's whole row is now full and 7 if its whole column is;
and on the concrete otherwise-empty wall holding (0,0) and (0,1), placing
RED (column 2 of row 0, horizontal run 3, vertical run 1) scores 3. -/
theorem add_tile_score (w : Wall) (row : Fin 5) (tile : Tile)
    (h : w.rows row (colOf row tile) = false) :
    (∃ w' pts, w.add_tile row tile = some (w', pts) ∧
      w' = w.setCell row (colOf row tile) ∧
      pts = hRun w' row (colOf row tile) + vRun w' row (colOf row tile) - 1 +
        ((if ∀ c : Fin 5, w'.rows row c = true then 2 else 0) +
          (if ∀ r : Fin 5, w'.rows r (colOf row tile) = true then 7 else 0))) ∧
    (Wall.add_tile ⟨fun r c => r = 0 ∧ (c = 0 ∨ c = 1)⟩ 0 Tile.RED).map Prod.snd =
      some 3 := by
  constructor
  · have hcell : (w.setCell row (colOf row tile)).rows row (colOf row tile) = true := by
      simp [Wall.setCell]
    refine ⟨w.setCell row (colOf row tile),
      (w.setCell row (colOf row tile)).points_at (colOf row tile) row +
        (w.setCell row (colOf row tile)).bonus_points_at (colOf row tile) row,
      ?_, rfl, ?_⟩
    · unfold Wall.add_tile
      rw [if_neg (by simp [h])]
    · rw [points_at_eq _ _ _ hcell]
      unfold Wall.bonus_points_at
      have h1 := runCard_pos ((w.setCell row (colOf row tile)).rows row) (colOf row tile)
        hcell
      have h2 := runCard_pos (fun i => (w.setCell row (colOf row tile)).rows i
        (colOf row tile)) row hcell
      unfold hRun vRun
      omega
  · decide

/-- C6 witness: the concrete wall of the example satisfies the hypothesis. -/
theorem add_tile_score_witness :
    (Wall.add_tile ⟨fun r c => r = 0 ∧ (c = 0 ∨ c = 1)⟩ 0 Tile.RED).map Prod.snd =
      some 3 :=
  (add_tile_score ⟨fun r c => r = 0 ∧ (c = 0 ∨ c = 1)⟩ 0 Tile.RED (by decide)).2

/-! ## C1: tile conservation, lemma chain -/

theorem indicator_sum_one : ∀ (r c : Fin 5),
    (∑ r' : Fin 5, ∑ c' : Fin 5, (if r' = r ∧ c' = c then (1 : Nat) else 0)) = 1 := by
  decide

theorem len_setCell (w : Wall) (r c : Fin 5) (h : w.rows r c = false) :
    (w.setCell r c).len = w.len + 1 := by
  unfold Wall.len Wall.setCell
  have hpt : ∀ r' c' : Fin 5,
      (if (if r' = r ∧ c' = c then true else w.rows r' c') then (1 : Nat) else 0) =
        (if w.rows r' c' then 1 else 0) + (if r' = r ∧ c' = c then 1 else 0) := by
    intro r' c'
    by_cases he : r' = r ∧ c' = c
    · obtain ⟨h1, h2⟩ := he
      subst h1; subst h2
      simp [h]
    · simp [he]
  simp only [hpt, Finset.sum_add_distrib]
  rw [indicator_sum_one r c]

theorem add_tile_len (w : Wall) (row : Fin 5) (t : Tile) (w' : Wall) (pts : Nat)
    (h : w.add_tile row t = some (w', pts)) : w'.len = w.len + 1 := by
  unfold Wall.add_tile at h
  dsimp only at h
  split at h
  · exact absurd h (by simp)
  · next hcol =>
    simp only [Option.some.injEq, Prod.mk.injEq] at h
    rw [← h.1]
    exact len_setCell w row (colOf row t) (by simpa using hcol)

theorem sum_update_apply (g : Option (Tile × Nat) → Nat)
    (f : Fin 5 → Option (Tile × Nat)) (i : Fin 5) (v : Option (Tile × Nat)) :
    (∑ j : Fin 5, g (Function.update f i v j)) + g (f i) =
      (∑ j : Fin 5, g (f j)) + g v := by
  have hfun : (fun j => g (Function.update f i v j)) =
      Function.update (fun j => g (f j)) i (g v) := by
    funext j
    by_cases hj : j = i
    · subst hj; simp
    · simp [Function.update_noteq hj]
  rw [hfun, Finset.sum_update_of_mem (Finset.mem_univ i),
    Finset.sdiff_singleton_eq_erase, ← Finset.add_sum_erase _ (fun j => g (f j))
      (Finset.mem_univ i)]
  omega

theorem maybe_place_tile_count (p : Player) (tile : Tile) (count : Nat) (row : Fin 5) :
    ((p.maybe_place tile count row).1 = false → (p.maybe_place tile count row).2 = p) ∧
    ((p.maybe_place tile count row).1 = true →
      ((p.maybe_place tile count row).2).tile_count = p.tile_count + count) := by
  by_cases hwall : p.wall.has_tile row tile = true
  · have hval : p.maybe_place tile count row = (false, p) := by
      simp [Player.maybe_place, hwall]
    rw [hval]
    exact ⟨fun _ => rfl, fun habs => Bool.noConfusion habs⟩
  · have hwall' : p.wall.has_tile row tile = false := by simpa using hwall
    rcases hrow : p.rows row with _ | ⟨t', c⟩
    · have hval : p.maybe_place tile count row =
          (true, { p with
                     rows := Function.update p.rows row
                       (some (tile, count - (count - ((row : Nat) + 1)))),
                     discard := p.discard.add tile (count - ((row : Nat) + 1)) }) := by
        simp [Player.maybe_place, hwall', hrow]
      rw [hval]
      refine ⟨fun habs => Bool.noConfusion habs, fun _ => ?_⟩
      unfold Player.tile_count
      simp only
      have hsum := sum_update_apply (fun o => (o.map Prod.snd).getD 0) p.rows row
        (some (tile, count - (count - ((row : Nat) + 1))))
      rw [hrow] at hsum
      simp only [Option.map_some', Option.map_none', Option.getD_some,
        Option.getD_none] at hsum
      rw [TileSet.len_add]
      omega
    · by_cases ht' : t' = tile
      · subst ht'
        have hval : p.maybe_place t' count row =
            (true, { p with
                       rows := Function.update p.rows row
                         (some (t', c + (count - (count - (((row : Nat) + 1) - c))))),
                       discard := p.discard.add t'
                         (count - (((row : Nat) + 1) - c)) }) := by
          simp [Player.maybe_place, hwall', hrow]
        rw [hval]
        refine ⟨fun habs => Bool.noConfusion habs, fun _ => ?_⟩
        unfold Player.tile_count
        simp only
        have hsum := sum_update_apply (fun o => (o.map Prod.snd).getD 0) p.rows row
          (some (t', c + (count - (count - (((row : Nat) + 1) - c)))))
        rw [hrow] at hsum
        simp only [Option.map_some', Option.getD_some] at hsum
        rw [TileSet.len_add]
        omega
      · have hval : p.maybe_place tile count row = (false, p) := by
          simp [Player.maybe_place, hwall', hrow, ht']
        rw [hval]
        exact ⟨fun _ => rfl, fun habs => Bool.noConfusion habs⟩

theorem rowsLoop_conserve : ∀ (is : List (Fin 5)) (p : Player) (tray : TileSet)
    (p1 : Player) (tray1 : TileSet),
    Player.rowsLoop is p tray = some (p1, tray1) →
    p1.tile_count + tray1.len = p.tile_count + tray.len
  | [], p, tray, p1, tray1, h => by
      simp only [Player.rowsLoop, Option.some.injEq, Prod.mk.injEq] at h
      rw [h.1, h.2]
  | i :: is, p, tray, p1, tray1, h => by
      unfold Player.rowsLoop at h
      rcases hrow : p.rows i with _ | ⟨t, cnt⟩ <;> rw [hrow] at h <;> dsimp only at h
      · exact rowsLoop_conserve is p tray p1 tray1 h
      · by_cases hfull : cnt = (i : Nat) + 1

        · rw [if_pos hfull] at h
          rcases hadd : p.wall.add_tile i t with _ | ⟨w', pts⟩ <;>
            try simp only [Option.bind_eq_bind] at h
          all_goals rw [hadd] at h
          · exact absurd h (by simp)
          · try simp only [Option.bind_eq_bind, Option.some_bind] at h
            try dsimp only at h
            have hrec := rowsLoop_conserve is _ _ p1 tray1 h
            have hwlen := add_tile_len _ _ _ _ _ hadd
            have hsum := sum_update_apply (fun o => (o.map Prod.snd).getD 0) p.rows i none
            rw [hrow] at hsum
            simp only [Option.map_some', Option.map_none', Option.getD_some,
              Option.getD_none] at hsum
            unfold Player.tile_count at hrec ⊢
            simp only at hrec ⊢
            rw [TileSet.len_add] at hrec
            rw [hwlen] at hrec
            omega
        · rw [if_neg hfull] at h
          exact rowsLoop_conserve is p tray p1 tray1 h

theorem prepare_player_conserve (p : Player) (tray : TileSet) (p' : Player)
    (tray' : TileSet) (h : p.prepare_next_round tray = some (p', tray')) :
    p'.tile_count + tray'.len = p.tile_count + tray.len := by
  unfold Player.prepare_next_round at h
  rcases hloop : Player.rowsLoop (List.finRange 5) p tray with _ | ⟨p1, tray1⟩ <;>
    rw [hloop] at h
  · exact absurd h (by simp)
  · try simp only [Option.bind_eq_bind, Option.some_bind] at h
    try dsimp only at h
    simp only [Option.some.injEq, Prod.mk.injEq] at h
    have hcons := rowsLoop_conserve _ _ _ _ _ hloop
    rw [← h.1, ← h.2]
    unfold Player.tile_count at hcons ⊢
    simp only [TileSet.len_extend]
    have hnew : TileSet.new.len = 0 := rfl
    omega

theorem playersLoop_conserve : ∀ (ps : List Player) (tray : TileSet)
    (ps' : List Player) (tray' : TileSet),
    State.playersLoop ps tray = some (ps', tray') →
    (ps'.map Player.tile_count).sum + tray'.len =
      (ps.map Player.tile_count).sum + tray.len ∧ ps'.length = ps.length
  | [], tray, ps', tray', h => by
      simp only [State.playersLoop, Option.some.injEq, Prod.mk.injEq] at h
      rw [← h.1, ← h.2]
      exact ⟨rfl, rfl⟩
  | p :: ps, tray, ps', tray', h => by
      unfold State.playersLoop at h
      rcases hp : p.prepare_next_round tray with _ | ⟨p1, tray1⟩ <;> rw [hp] at h
      · exact absurd h (by simp)
      · try simp only [Option.bind_eq_bind, Option.some_bind] at h
        try dsimp only at h
        rcases hps : State.playersLoop ps tray1 with _ | ⟨ps1, tray2⟩ <;> rw [hps] at h
        · exact absurd h (by simp)
        · try simp only [Option.bind_eq_bind, Option.some_bind] at h
          try dsimp only at h
          simp only [Option.some.injEq, Prod.mk.injEq] at h
          obtain ⟨hcons, hlen⟩ := playersLoop_conserve ps tray1 ps1 tray2 hps
          have hpc := prepare_player_conserve p tray p1 tray1 hp
          rw [← h.1, ← h.2]
          constructor
          · simp only [List.map_cons, List.sum_cons]
            omega
          · simp [hlen]

theorem sum_len_of_all_four (fs : List TileSet) (h : ∀ f ∈ fs, f.len = 4) :
    (fs.map TileSet.len).sum = 4 * fs.length := by
  induction fs with
  | nil => rfl
  | cons f fs ih =>
      simp only [List.map_cons, List.sum_cons, List.length_cons]
      rw [h f (List.mem_cons_self f fs), ih (fun x hx => h x (List.mem_cons_of_mem f hx))]
      ring

theorem deal_conserve (s : State) (g : RNG) (s' : State) (g' : RNG)
    (h : s.deal g = some (s', g')) :
    s'.tile_count = s.tile_count ∧ s'.players = s.players ∧ s'.moves = s.moves := by
  unfold State.deal at h
  dsimp only at h
  by_cases hlow : s.bag.len < 4 * 5
  · rw [if_pos hlow] at h
    obtain ⟨fs, hfact, hfslen, hfall, hbag, hcenter, htray, hplayers, hmoves⟩ :=
      dealLoop_spec 5 _ g s' g' h
    refine ⟨?_, by simpa using hplayers, by simpa using hmoves⟩
    unfold State.tile_count
    rw [hfact, hcenter, htray, hplayers]
    simp only [List.map_append, List.sum_append]
    rw [sum_len_of_all_four fs hfall, hfslen]
    simp only [TileSet.len_extend] at hbag
    have hnew : TileSet.new.len = 0 := rfl
    omega
  · rw [if_neg hlow] at h
    obtain ⟨fs, hfact, hfslen, hfall, hbag, hcenter, htray, hplayers, hmoves⟩ :=
      dealLoop_spec 5 _ g s' g' h
    refine ⟨?_, hplayers, hmoves⟩
    unfold State.tile_count
    rw [hfact, hcenter, htray, hplayers]
    simp only [List.map_append, List.sum_append]
    rw [sum_len_of_all_four fs hfall, hfslen]
    omega

theorem prepare_next_round_conserve (s : State) (g : RNG) (s' : State) (g' : RNG)
    (h : s.prepare_next_round g = some (s', g')) :
    s'.tile_count = s.tile_count ∧ s'.players.length = s.players.length := by
  unfold State.prepare_next_round at h
  by_cases he : s.is_empty = true
  · rw [if_pos he] at h
    rcases hpl : State.playersLoop s.players s.tray with _ | ⟨players', tray'⟩ <;>
      rw [hpl] at h
    · exact absurd h (by simp)
    · try simp only [Option.bind_eq_bind, Option.some_bind] at h
      try dsimp only at h
      rcases hd : State.deal { s with players := players', tray := tray' } g with
        _ | ⟨s2, g2⟩ <;> rw [hd] at h
      · exact absurd h (by simp)
      · try simp only [Option.bind_eq_bind, Option.some_bind] at h
        try dsimp only at h
        simp only [Option.some.injEq, Prod.mk.injEq] at h
        obtain ⟨hdc, hdp, _⟩ := deal_conserve _ _ _ _ hd
        obtain ⟨hsum, hlen⟩ := playersLoop_conserve _ _ _ _ hpl
        rw [← h.1]
        constructor
        · show s2.tile_count = s.tile_count
          rw [hdc]
          unfold State.tile_count
          simp only
          omega
        · show s2.players.length = s.players.length
          rw [hdp]
          simpa using hlen
  · rw [if_neg he] at h
    simp only [Option.some.injEq, Prod.mk.injEq] at h
    rw [← h.1]
    exact ⟨rfl, rfl⟩

theorem set_map_sum : ∀ (l : List Player) (i : Nat) (p : Player), i < l.length →
    ((l.set i p).map Player.tile_count).sum +
        Player.tile_count (l.getD i Player.new) =
      (l.map Player.tile_count).sum + p.tile_count
  | [], i, p, hi => by simp at hi
  | q :: l, 0, p, hi => by simp [List.set]; omega
  | q :: l, i + 1, p, hi => by
      simp only [List.set, List.map_cons, List.sum_cons, List.getD_cons_succ]
      have := set_map_sum l i p (by simpa using hi)
      omega

theorem setPlayer_tile_count (s : State) (i : Nat) (p : Player)
    (hi : i < s.players.length) :
    (s.setPlayer i p).tile_count + (s.players.getD i Player.new).tile_count =
      s.tile_count + p.tile_count := by
  unfold State.setPlayer State.tile_count
  simp only
  have := set_map_sum s.players i p hi
  omega

theorem setPlayer_length (s : State) (i : Nat) (p : Player) :
    (s.setPlayer i p).players.length = s.players.length := by
  simp [State.setPlayer]

theorem current_player_lt (s : State) (hp : 0 < s.players.length) :
    s.current_player < s.players.length :=
  Nat.mod_lt _ hp

theorem placeRows_conserve : ∀ (rows : List (Fin 5)) (s : State) (tile : Tile)
    (count : Nat) (g : RNG) (out : List State) (g' : RNG),
    0 < s.players.length →
    State.placeRows rows s tile count g = some (out, g') →
    ∀ c ∈ out, c.tile_count = s.tile_count + count ∧
      c.players.length = s.players.length
  | [], s, tile, count, g, out, g', hp, h => by
      simp only [State.placeRows, Option.some.injEq, Prod.mk.injEq] at h
      rw [← h.1]
      intro c hc
      exact absurd hc (by simp)
  | row :: rest, s, tile, count, g, out, g', hp, h => by
      unfold State.placeRows at h
      dsimp only at h
      rcases hmp : (s.players.getD s.current_player Player.new).maybe_place tile count
        row with ⟨ok, p'⟩
      rw [hmp] at h
      dsimp only at h
      obtain ⟨hfalse, htrue⟩ :=
        maybe_place_tile_count (s.players.getD s.current_player Player.new) tile count row
      rw [hmp] at hfalse htrue
      cases ok
      · exact placeRows_conserve rest s tile count g out g' hp h
      · simp only [if_true] at h
        rcases hprep : (s.setPlayer s.current_player p').prepare_next_round g with
          _ | ⟨child, g1⟩ <;> rw [hprep] at h
        · exact absurd h (by simp)
        · try simp only [Option.bind_eq_bind, Option.some_bind] at h
          try dsimp only at h
          rcases hrest : State.placeRows rest s tile count g1 with _ | ⟨children, g2⟩ <;>
            rw [hrest] at h
          · exact absurd h (by simp)
          · try simp only [Option.bind_eq_bind, Option.some_bind] at h
            try dsimp only at h
            simp only [Option.some.injEq, Prod.mk.injEq] at h
            rw [← h.1]
            intro c hc
            rcases List.mem_cons.mp hc with hc | hc
            · subst hc
              obtain ⟨hcons, hlen⟩ := prepare_next_round_conserve _ _ _ _ hprep
              have hset := setPlayer_tile_count s s.current_player p'
                (current_player_lt s hp)
              have hpt := htrue rfl
              dsimp only at hpt
              rw [setPlayer_length] at hlen
              exact ⟨by omega, by omega⟩
            · exact placeRows_conserve rest s tile count g1 children g2 hp hrest c hc

theorem place_all_conserve (s : State) (tile : Tile) (count : Nat) (g : RNG)
    (out : List State) (g' : RNG) (hp : 0 < s.players.length)
    (h : s.place_all tile count g = some (out, g')) :
    ∀ c ∈ out, c.tile_count = s.tile_count + count ∧
      c.players.length = s.players.length := by
  unfold State.place_all at h
  rcases hrows : State.placeRows (List.finRange 5) s tile count g with
    _ | ⟨states, g1⟩ <;> rw [hrows] at h
  · exact absurd h (by simp)
  · try simp only [Option.bind_eq_bind, Option.some_bind] at h
    try dsimp only at h
    by_cases hempty : states.isEmpty
    · rw [if_pos hempty] at h
      rcases hprep : (s.setPlayer s.current_player
          { s.players.getD s.current_player Player.new with
              discard := (s.players.getD s.current_player Player.new).discard.add tile
                count }).prepare_next_round g1 with _ | ⟨child, g2⟩ <;> rw [hprep] at h
      · exact absurd h (by simp)
      · try simp only [Option.bind_eq_bind, Option.some_bind] at h
        try dsimp only at h
        simp only [Option.some.injEq, Prod.mk.injEq] at h
        rw [← h.1]
        intro c hc
        have hc' : c = child := by simpa using hc
        subst hc'
        obtain ⟨hcons, hlen⟩ := prepare_next_round_conserve _ _ _ _ hprep
        have hset := setPlayer_tile_count s s.current_player
          { s.players.getD s.current_player Player.new with
              discard := (s.players.getD s.current_player Player.new).discard.add tile
                count } (current_player_lt s hp)
        have hdisc : Player.tile_count { s.players.getD s.current_player Player.new with
            discard := (s.players.getD s.current_player Player.new).discard.add tile
              count } = (s.players.getD s.current_player Player.new).tile_count + count := by
          unfold Player.tile_count
          simp only [TileSet.len_add]
          omega
        rw [setPlayer_length] at hlen
        rw [hdisc] at hset
        exact ⟨by omega, by omega⟩
    · rw [if_neg hempty] at h
      simp only [Option.some.injEq, Prod.mk.injEq] at h
      rw [← h.1]
      exact placeRows_conserve _ s tile count g states g1 hp hrows

theorem tileLoop_conserve : ∀ (ts : List Tile) (stateF : State) (factory : TileSet)
    (g : RNG) (out : List State) (g' : RNG),
    0 < stateF.players.length →
    State.tileLoop ts stateF factory g = some (out, g') →
    ∀ c ∈ out, c.tile_count = stateF.tile_count + factory.len ∧
      c.players.length = stateF.players.length
  | [], stateF, factory, g, out, g', hp, h => by
      simp only [State.tileLoop, Option.some.injEq, Prod.mk.injEq] at h
      rw [← h.1]
      intro c hc
      exact absurd hc (by simp)
  | t :: ts, stateF, factory, g, out, g', hp, h => by
      unfold State.tileLoop at h
      dsimp only [TileSet.drain] at h
      by_cases hcount : factory.get t > 0
      · rw [if_pos hcount] at h
        set s2 := { stateF with center := stateF.center.extend (factory.set t 0) } with hs2
        rcases hpa : s2.place_all t (factory.get t) g with _ | ⟨cs1, g1⟩ <;>
          rw [hpa] at h
        · exact absurd h (by simp)
        · try simp only [Option.bind_eq_bind, Option.some_bind] at h
          try dsimp only at h
          rcases hrest : State.tileLoop ts stateF factory g1 with _ | ⟨cs2, g2⟩ <;>
            rw [hrest] at h
          · exact absurd h (by simp)
          · try simp only [Option.bind_eq_bind, Option.some_bind] at h
            try dsimp only at h
            simp only [Option.some.injEq, Prod.mk.injEq] at h
            rw [← h.1]
            intro c hc
            rcases List.mem_append.mp hc with hc | hc
            · have hp2 : 0 < s2.players.length := hp
              obtain ⟨hcons, hlen⟩ := place_all_conserve s2 t (factory.get t) g cs1 g1
                hp2 hpa c hc
              have hs2count : s2.tile_count = stateF.tile_count + (factory.set t 0).len := by
                rw [hs2]
                unfold State.tile_count
                simp only [TileSet.len_extend]
                omega
              have hdrain := factory.len_set_zero t
              exact ⟨by omega, hlen⟩
            · exact tileLoop_conserve ts stateF factory g1 cs2 g2 hp hrest c hc
      · rw [if_neg hcount] at h
        exact tileLoop_conserve ts stateF factory g out g' hp h

theorem eraseIdx_len_sum : ∀ (l : List TileSet) (i : Nat), i < l.length →
    ((l.eraseIdx i).map TileSet.len).sum + (l.getD i TileSet.new).len =
      (l.map TileSet.len).sum
  | [], i, hi => by simp at hi
  | f :: l, 0, hi => by simp [List.eraseIdx]; omega
  | f :: l, i + 1, hi => by
      simp only [List.eraseIdx, List.map_cons, List.sum_cons, List.getD_cons_succ]
      have := eraseIdx_len_sum l i (by simpa using hi)
      omega

theorem factoryLoop_conserve : ∀ (fis : List Nat) (s : State) (g : RNG)
    (out : List State) (g' : RNG),
    0 < s.players.length →
    (∀ fi ∈ fis, fi < s.factories.length) →
    State.factoryLoop fis s g = some (out, g') →
    ∀ c ∈ out, c.tile_count = s.tile_count ∧ c.players.length = s.players.length
  | [], s, g, out, g', hp, hfi, h => by
      simp only [State.factoryLoop, Option.some.injEq, Prod.mk.injEq] at h
      rw [← h.1]
      intro c hc
      exact absurd hc (by simp)
  | fi :: fis, s, g, out, g', hp, hfi, h => by
      unfold State.factoryLoop at h
      dsimp only at h
      rcases htl : State.tileLoop TILES { s with factories := s.factories.eraseIdx fi }
          (s.factories.getD fi TileSet.new) g with _ | ⟨cs1, g1⟩ <;> rw [htl] at h
      · exact absurd h (by simp)
      · try simp only [Option.bind_eq_bind, Option.some_bind] at h
        try dsimp only at h
        rcases hrest : State.factoryLoop fis s g1 with _ | ⟨cs2, g2⟩ <;> rw [hrest] at h
        · exact absurd h (by simp)
        · try simp only [Option.bind_eq_bind, Option.some_bind] at h
          try dsimp only at h
          simp only [Option.some.injEq, Prod.mk.injEq] at h
          rw [← h.1]
          intro c hc
          rcases List.mem_append.mp hc with hc | hc
          · obtain ⟨hcons, hlen⟩ := tileLoop_conserve TILES
              { s with factories := s.factories.eraseIdx fi }
              (s.factories.getD fi TileSet.new) g cs1 g1 hp htl c hc
            have herase := eraseIdx_len_sum s.factories fi
              (hfi fi (List.mem_cons_self fi fis))
            have hsF : ({ s with factories := s.factories.eraseIdx fi } : State).tile_count +
                (s.factories.getD fi TileSet.new).len = s.tile_count := by
              unfold State.tile_count
              simp only
              omega
            exact ⟨by omega, hlen⟩
          · exact factoryLoop_conserve fis s g1 cs2 g2 hp
              (fun x hx => hfi x (List.mem_cons_of_mem fi hx)) hrest c hc

theorem centerLoop_conserve : ∀ (ts : List Tile) (s : State) (g : RNG)
    (out : List State) (g' : RNG),
    0 < s.players.length →
    State.centerLoop ts s g = some (out, g') →
    ∀ c ∈ out, c.tile_count = s.tile_count ∧ c.players.length = s.players.length
  | [], s, g, out, g', hp, h => by
      simp only [State.centerLoop, Option.some.injEq, Prod.mk.injEq] at h
      rw [← h.1]
      intro c hc
      exact absurd hc (by simp)
  | t :: ts, s, g, out, g', hp, h => by
      unfold State.centerLoop at h
      dsimp only [TileSet.drain] at h
      by_cases hcount : s.center.get t > 0
      · rw [if_pos hcount] at h
        rcases hpa : ({ s with center := s.center.set t 0 } : State).place_all t
            (s.center.get t) g with _ | ⟨cs1, g1⟩ <;> rw [hpa] at h
        · exact absurd h (by simp)
        · try simp only [Option.bind_eq_bind, Option.some_bind] at h
          try dsimp only at h
          rcases hrest : State.centerLoop ts s g1 with _ | ⟨cs2, g2⟩ <;> rw [hrest] at h
          · exact absurd h (by simp)
          · try simp only [Option.bind_eq_bind, Option.some_bind] at h
            try dsimp only at h
            simp only [Option.some.injEq, Prod.mk.injEq] at h
            rw [← h.1]
            intro c hc
            rcases List.mem_append.mp hc with hc | hc
            · obtain ⟨hcons, hlen⟩ := place_all_conserve
                { s with center := s.center.set t 0 } t (s.center.get t) g cs1 g1
                hp hpa c hc
              have hdrain := s.center.len_set_zero t
              have hmid : ({ s with center := s.center.set t 0 } : State).tile_count +
                  s.center.get t = s.tile_count := by
                unfold State.tile_count
                simp only
                omega
              exact ⟨by omega, hlen⟩
            · exact centerLoop_conserve ts s g1 cs2 g2 hp hrest c hc
      · rw [if_neg hcount] at h
        exact centerLoop_conserve ts s g out g' hp h

theorem children_conserve (s : State) (g : RNG) (cs : List State) (g' : RNG)
    (hp : 0 < s.players.length) (h : s.children g = some (cs, g')) :
    ∀ c ∈ cs, c.tile_count = s.tile_count ∧ c.players.length = s.players.length := by
  unfold State.children at h
  rcases hfl : State.factoryLoop (List.range s.factories.length) s g with
    _ | ⟨cs1, g1⟩ <;> rw [hfl] at h
  · exact absurd h (by simp)
  · try simp only [Option.bind_eq_bind, Option.some_bind] at h
    try dsimp only at h
    rcases hcl : State.centerLoop TILES s g1 with _ | ⟨cs2, g2⟩ <;> rw [hcl] at h
    · exact absurd h (by simp)
    · try simp only [Option.bind_eq_bind, Option.some_bind] at h
      try dsimp only at h
      simp only [Option.some.injEq, Prod.mk.injEq] at h
      rw [← h.1]
      intro c hc
      rcases List.mem_append.mp hc with hc | hc
      · exact factoryLoop_conserve _ s g cs1 g1 hp
          (fun x hx => List.mem_range.mp hx) hfl c hc
      · exact centerLoop_conserve TILES s g1 cs2 g2 hp hcl c hc

theorem new_tile_count (n : Nat) : (State.new n).tile_count = 100 := by
  unfold State.tile_count State.new
  simp only [List.map_replicate]
  have : Player.tile_count Player.new = 0 := by decide
  rw [this]
  simp [TileSet.len, TileSet.new]

theorem reachable_invariant (n : Nat) (hn : 0 < n) :
    ∀ s, Reachable n s → s.tile_count = 100 ∧ s.players.length = n := by
  intro s h
  induction h with
  | dealt g s' g' hdeal =>
      obtain ⟨hcons, hplayers, _⟩ := deal_conserve _ _ _ _ hdeal
      refine ⟨?_, ?_⟩
      · rw [hcons, new_tile_count]
      · rw [hplayers]
        simp [State.new]
  | step s g cs g' c _ hch hmem ih =>
      obtain ⟨h100, hlen⟩ := ih
      obtain ⟨hcons, hlen'⟩ := children_conserve s g cs g' (by omega) hch c hmem
      exact ⟨by omega, by omega⟩

/-- C1: every state reachable from a freshly constructed game (new, deal,
then any sequence of children-successors, under any random sources) has
exactly 100 tiles across bag, factories, center, tray and all players'
rows, walls and discards, and self_check does not panic on it. -/
theorem tile_conservation (n : Nat) (s : State) (hn : 0 < n)
    (h : Reachable n s) : s.tile_count = 100 ∧ s.self_check = some () := by
  obtain ⟨h100, _⟩ := reachable_invariant n hn s h
  exact ⟨h100, by simp [State.self_check, h100]⟩

/-- C1 witness: the concrete state obtained by dealing the fresh two-player
game with the all-zeros random source is reachable and checks out. -/
theorem tile_conservation_witness :
    ∃ s : State, Reachable 2 s ∧ s.tile_count = 100 ∧ s.self_check = some () := by
  have hdeal : (State.new 2).deal zeroRng =
      some (⟨⟨0, 20, 20, 20, 20⟩,
        [⟨4, 0, 0, 0, 0⟩, ⟨4, 0, 0, 0, 0⟩, ⟨4, 0, 0, 0, 0⟩, ⟨4, 0, 0, 0, 0⟩,
          ⟨4, 0, 0, 0, 0⟩],
        TileSet.new, TileSet.new, List.replicate 2 Player.new, 0⟩, zeroRng) := by rfl
  have hr := Reachable.dealt (n := 2) zeroRng _ zeroRng hdeal
  exact ⟨_, hr, tile_conservation 2 _ (by omega) hr⟩

/-! ## C9: tie-breaking in the minmax loops -/

/-- The child values a maximizing node actually visits: the fold stops with
the element whose running maximum first exceeds beta (the β cutoff); with no
cutoff, all values are visited. -/
def visitedVals (beta : Int) : List Int → Int → List Int
  | [], _ => []
  | x :: xs, best => if max best x > beta then [x] else x :: visitedVals beta xs (max best x)

/-- The child values a minimizing node actually visits (α cutoff). -/
def visitedValsMin (alpha : Int) : List Int → Int → List Int
  | [], _ => []
  | x :: xs, best =>
      if min best x < alpha then [x] else x :: visitedValsMin alpha xs (min best x)

theorem foldl_max_of_lt : ∀ (l : List Int) (b : Int), (∀ x ∈ l, x < b) →
    l.foldl max b = b
  | [], b, _ => rfl
  | x :: l, b, h => by
      have hx : x < b := h x (List.mem_cons_self x l)
      simp only [List.foldl_cons, max_eq_left hx.le]
      exact foldl_max_of_lt l b (fun y hy => h y (List.mem_cons_of_mem x hy))

theorem foldl_max_init_le : ∀ (l : List Int) (b : Int), b ≤ l.foldl max b
  | [], b => le_refl b
  | x :: l, b => le_trans (le_max_left b x) (foldl_max_init_le l (max b x))

theorem foldl_max_mem_le : ∀ (l : List Int) (b x : Int), x ∈ l → x ≤ l.foldl max b
  | [], b, x, h => absurd h (by simp)
  | y :: l, b, x, h => by
      rcases List.mem_cons.mp h with h | h
      · subst h
        exact le_trans (le_max_right b x) (foldl_max_init_le l (max b x))
      · exact foldl_max_mem_le l (max b y) x h

theorem foldl_min_of_gt : ∀ (l : List Int) (b : Int), (∀ x ∈ l, b < x) →
    l.foldl min b = b
  | [], b, _ => rfl
  | x :: l, b, h => by
      have hx : b < x := h x (List.mem_cons_self x l)
      simp only [List.foldl_cons, min_eq_left hx.le]
      exact foldl_min_of_gt l b (fun y hy => h y (List.mem_cons_of_mem x hy))

theorem foldl_min_le_init : ∀ (l : List Int) (b : Int), l.foldl min b ≤ b
  | [], b => le_refl b
  | x :: l, b => le_trans (foldl_min_le_init l (min b x)) (min_le_left b x)

theorem foldl_min_le_mem : ∀ (l : List Int) (b x : Int), x ∈ l → l.foldl min b ≤ x
  | [], b, x, h => absurd h (by simp)
  | y :: l, b, x, h => by
      rcases List.mem_cons.mp h with h | h
      · subst h
        exact le_trans (foldl_min_le_init l (min b x)) (min_le_right b x)
      · exact foldl_min_le_mem l (min b y) x h

theorem visitedVals_length_le : ∀ (l : List Int) (beta b : Int),
    (visitedVals beta l b).length ≤ l.length
  | [], _, _ => le_refl 0
  | x :: l, beta, b => by
      unfold visitedVals
      split
      · simp
      · simpa using visitedVals_length_le l beta (max b x)

theorem visitedValsMin_length_le : ∀ (l : List Int) (alpha b : Int),
    (visitedValsMin alpha l b).length ≤ l.length
  | [], _, _ => le_refl 0
  | x :: l, alpha, b => by
      unfold visitedValsMin
      split
      · simp
      · simpa using visitedValsMin_length_le l alpha (min b x)

theorem maxLoop_charact (v : State → Int) :
    ∀ (cs : List State) (i : Nat) (g : RNG) (alpha beta best : Int) (j : Nat),
      best ≤ beta →
      ∃ r m, maxLoop (fun c gc _ _ => some (v c, gc)) cs i g alpha beta best (some j) =
          some ((some r, m), g) ∧
        m = (visitedVals beta (cs.map v) best).foldl max best ∧
        ((r = j ∧ ∀ x ∈ visitedVals beta (cs.map v) best, x < best) ∨
          (∃ k, ∃ hk : k < (visitedVals beta (cs.map v) best).length, r = i + k ∧
            (visitedVals beta (cs.map v) best).get ⟨k, hk⟩ = m ∧
            ∀ k' (hk' : k' < (visitedVals beta (cs.map v) best).length), k < k' →
              (visitedVals beta (cs.map v) best).get ⟨k', hk'⟩ < m))
  | [], i, g, alpha, beta, best, j, hb =>
      ⟨j, best, rfl, by simp [visitedVals], Or.inl ⟨rfl, by simp [visitedVals]⟩⟩
  | c :: cs, i, g, alpha, beta, best, j, hb => by
      by_cases hge : v c ≥ best
      · by_cases hcut : v c > beta
        · have hvis1 : visitedVals beta ((c :: cs).map v) best = [v c] := by
            simp only [List.map_cons, visitedVals]
            rw [max_eq_right hge, if_pos hcut]
          refine ⟨i, v c, ?_, ?_, ?_⟩
          · simp [maxLoop, hge, hcut]
          · rw [hvis1]
            simp [max_eq_right hge]
          · rw [hvis1]
            refine Or.inr ⟨0, by simp, by omega, rfl, ?_⟩
            intro k' hk' hgt
            simp only [List.length_singleton] at hk'
            omega
        · have hle : v c ≤ beta := not_lt.mp hcut
          obtain ⟨r, m, hres, hm, hdisj⟩ :=
            maxLoop_charact v cs (i + 1) g (max alpha (v c)) beta (v c) i hle
          have hvis : visitedVals beta ((c :: cs).map v) best =
              v c :: visitedVals beta (cs.map v) (v c) := by
            simp only [List.map_cons, visitedVals, max_eq_right hge]
            rw [if_neg (by omega)]
          refine ⟨r, m, ?_, ?_, ?_⟩
          · rw [show maxLoop (fun c gc _ _ => some (v c, gc)) (c :: cs) i g alpha beta
                best (some j) = maxLoop (fun c gc _ _ => some (v c, gc)) cs (i + 1) g
                (max alpha (v c)) beta (v c) (some i) by simp [maxLoop, hge, hcut]]
            exact hres
          · rw [hvis]
            simp only [List.foldl_cons, max_eq_right hge]
            exact hm
          · rw [hvis]
            rcases hdisj with ⟨hr, hall⟩ | ⟨k, hk, hr, hget, hlater⟩
            · subst hr
              have hmvc : m = v c := by
                rw [hm, foldl_max_of_lt _ _ hall]
              refine Or.inr ⟨0, by simp, by omega, by simpa using hmvc.symm, ?_⟩
              intro k' hk' hgt
              rcases k' with _ | k''
              · omega
              · simp only [List.length_cons] at hk'
                rw [List.get_cons_succ, hmvc]
                exact hall _ (List.get_mem _ k'' (by omega))
            · refine Or.inr ⟨k + 1, by simp; omega, by omega, ?_, ?_⟩
              · rw [List.get_cons_succ]
                exact hget
              · intro k' hk' hgt
                rcases k' with _ | k''
                · omega
                · rw [List.get_cons_succ]
                  exact hlater k'' (by simp at hk'; omega) (by omega)
      · have hlt : v c < best := not_le.mp hge
        obtain ⟨r, m, hres, hm, hdisj⟩ :=
          maxLoop_charact v cs (i + 1) g (max alpha best) beta best j hb
        have hvis : visitedVals beta ((c :: cs).map v) best =
            v c :: visitedVals beta (cs.map v) best := by
          simp only [List.map_cons, visitedVals, max_eq_left hlt.le]
          rw [if_neg (by omega)]
        refine ⟨r, m, ?_, ?_, ?_⟩
        · rw [show maxLoop (fun c gc _ _ => some (v c, gc)) (c :: cs) i g alpha beta
              best (some j) = maxLoop (fun c gc _ _ => some (v c, gc)) cs (i + 1) g
              (max alpha best) beta best (some j) by
            simp [maxLoop, hge, not_lt.mpr hb]]
          exact hres
        · rw [hvis]
          simp only [List.foldl_cons, max_eq_left hlt.le]
          exact hm
        · rw [hvis]
          rcases hdisj with ⟨hr, hall⟩ | ⟨k, hk, hr, hget, hlater⟩
          · refine Or.inl ⟨hr, ?_⟩
            intro x hx
            rcases List.mem_cons.mp hx with hx | hx
            · omega
            · exact hall x hx
          · refine Or.inr ⟨k + 1, by simp; omega, by omega, ?_, ?_⟩
            · rw [List.get_cons_succ]
              exact hget
            · intro k' hk' hgt
              rcases k' with _ | k''
              · omega
              · rw [List.get_cons_succ]
                exact hlater k'' (by simp at hk'; omega) (by omega)

theorem minLoop_charact (v : State → Int) :
    ∀ (cs : List State) (i : Nat) (g : RNG) (alpha beta best : Int) (j : Nat),
      alpha ≤ best →
      ∃ r m, minLoop (fun c gc _ _ => some (v c, gc)) cs i g alpha beta best (some j) =
          some ((some r, m), g) ∧
        m = (visitedValsMin alpha (cs.map v) best).foldl min best ∧
        ((r = j ∧ ∀ x ∈ visitedValsMin alpha (cs.map v) best, best < x) ∨
          (∃ k, ∃ hk : k < (visitedValsMin alpha (cs.map v) best).length, r = i + k ∧
            (visitedValsMin alpha (cs.map v) best).get ⟨k, hk⟩ = m ∧
            ∀ k' (hk' : k' < (visitedValsMin alpha (cs.map v) best).length), k < k' →
              m < (visitedValsMin alpha (cs.map v) best).get ⟨k', hk'⟩))
  | [], i, g, alpha, beta, best, j, hb =>
      ⟨j, best, rfl, by simp [visitedValsMin], Or.inl ⟨rfl, by simp [visitedValsMin]⟩⟩
  | c :: cs, i, g, alpha, beta, best, j, hb => by
      by_cases hge : v c ≤ best
      · by_cases hcut : v c < alpha
        · have hvis1 : visitedValsMin alpha ((c :: cs).map v) best = [v c] := by
            simp only [List.map_cons, visitedValsMin]
            rw [min_eq_right hge, if_pos hcut]
          refine ⟨i, v c, ?_, ?_, ?_⟩
          · simp [minLoop, hge, hcut]
          · rw [hvis1]
            simp [min_eq_right hge]
          · rw [hvis1]
            refine Or.inr ⟨0, by simp, by omega, rfl, ?_⟩
            intro k' hk' hgt
            simp only [List.length_singleton] at hk'
            omega
        · have hle : alpha ≤ v c := not_lt.mp hcut
          obtain ⟨r, m, hres, hm, hdisj⟩ :=
            minLoop_charact v cs (i + 1) g alpha (min beta (v c)) (v c) i hle
          have hvis : visitedValsMin alpha ((c :: cs).map v) best =
              v c :: visitedValsMin alpha (cs.map v) (v c) := by
            simp only [List.map_cons, visitedValsMin, min_eq_right hge]
            rw [if_neg (by omega)]
          refine ⟨r, m, ?_, ?_, ?_⟩
          · rw [show minLoop (fun c gc _ _ => some (v c, gc)) (c :: cs) i g alpha beta
                best (some j) = minLoop (fun c gc _ _ => some (v c, gc)) cs (i + 1) g
                alpha (min beta (v c)) (v c) (some i) by simp [minLoop, hge, hcut]]
            exact hres
          · rw [hvis]
            simp only [List.foldl_cons, min_eq_right hge]
            exact hm
          · rw [hvis]
            rcases hdisj with ⟨hr, hall⟩ | ⟨k, hk, hr, hget, hlater⟩
            · subst hr
              have hmvc : m = v c := by
                rw [hm, foldl_min_of_gt _ _ hall]
              refine Or.inr ⟨0, by simp, by omega, by simpa using hmvc.symm, ?_⟩
              intro k' hk' hgt
              rcases k' with _ | k''
              · omega
              · simp only [List.length_cons] at hk'
                rw [List.get_cons_succ, hmvc]
                exact hall _ (List.get_mem _ k'' (by omega))
            · refine Or.inr ⟨k + 1, by simp; omega, by omega, ?_, ?_⟩
              · rw [List.get_cons_succ]
                exact hget
              · intro k' hk' hgt
                rcases k' with _ | k''
                · omega
                · rw [List.get_cons_succ]
                  exact hlater k'' (by simp at hk'; omega) (by omega)
      · have hlt : best < v c := not_le.mp hge
        obtain ⟨r, m, hres, hm, hdisj⟩ :=
          minLoop_charact v cs (i + 1) g alpha (min beta best) best j hb
        have hvis : visitedValsMin alpha ((c :: cs).map v) best =
            v c :: visitedValsMin alpha (cs.map v) best := by
          simp only [List.map_cons, visitedValsMin, min_eq_left hlt.le]
          rw [if_neg (by omega)]
        refine ⟨r, m, ?_, ?_, ?_⟩
        · rw [show minLoop (fun c gc _ _ => some (v c, gc)) (c :: cs) i g alpha beta
              best (some j) = minLoop (fun c gc _ _ => some (v c, gc)) cs (i + 1) g
              alpha (min beta best) best (some j) by
            simp [minLoop, hge, not_lt.mpr hb]]
          exact hres
        · rw [hvis]
          simp only [List.foldl_cons, min_eq_left hlt.le]
          exact hm
        · rw [hvis]
          rcases hdisj with ⟨hr, hall⟩ | ⟨k, hk, hr, hget, hlater⟩
          · refine Or.inl ⟨hr, ?_⟩
            intro x hx
            rcases List.mem_cons.mp hx with hx | hx
            · omega
            · exact hall x hx
          · refine Or.inr ⟨k + 1, by simp; omega, by omega, ?_, ?_⟩
            · rw [List.get_cons_succ]
              exact hget
            · intro k' hk' hgt
              rcases k' with _ | k''
              · omega
              · rw [List.get_cons_succ]
                exact hlater k'' (by simp at hk'; omega) (by omega)

theorem maxLoop_none_charact (v : State → Int) (cs : List State) (g : RNG)
    (alpha beta : Int) (hne : cs ≠ []) (hv : ∀ c ∈ cs, i32min ≤ v c) :
    ∃ r m, maxLoop (fun c gc _ _ => some (v c, gc)) cs 0 g alpha beta i32min none =
        some ((some r, m), g) ∧
      m = (visitedVals beta (cs.map v) i32min).foldl max i32min ∧
      ∃ hk : r < (visitedVals beta (cs.map v) i32min).length,
        (visitedVals beta (cs.map v) i32min).get ⟨r, hk⟩ = m ∧
        ∀ k' (hk' : k' < (visitedVals beta (cs.map v) i32min).length), r < k' →
          (visitedVals beta (cs.map v) i32min).get ⟨k', hk'⟩ < m := by
  rcases cs with _ | ⟨c, rest⟩
  · exact absurd rfl hne
  · have hv0 : i32min ≤ v c := hv c (List.mem_cons_self c rest)
    by_cases hcut : v c > beta
    · have hvis1 : visitedVals beta ((c :: rest).map v) i32min = [v c] := by
        simp only [List.map_cons, visitedVals]
        rw [max_eq_right hv0, if_pos hcut]
      refine ⟨0, v c, by simp [maxLoop, hv0, hcut], ?_, ?_⟩
      · rw [hvis1]
        simp [max_eq_right hv0]
      · rw [hvis1]
        refine ⟨by simp, rfl, ?_⟩
        intro k' hk' hgt
        simp only [List.length_singleton] at hk'
        omega
    · have hle : v c ≤ beta := not_lt.mp hcut
      obtain ⟨r, m, hres, hm, hdisj⟩ :=
        maxLoop_charact v rest 1 g (max alpha (v c)) beta (v c) 0 hle
      have hvis : visitedVals beta ((c :: rest).map v) i32min =
          v c :: visitedVals beta (rest.map v) (v c) := by
        simp only [List.map_cons, visitedVals, max_eq_right hv0]
        rw [if_neg (by omega)]
      have hstep : maxLoop (fun c gc _ _ => some (v c, gc)) (c :: rest) 0 g alpha beta
          i32min none = maxLoop (fun c gc _ _ => some (v c, gc)) rest 1 g
          (max alpha (v c)) beta (v c) (some 0) := by
        simp [maxLoop, hv0, hcut]
      refine ⟨r, m, hstep.trans hres, ?_, ?_⟩
      · rw [hvis]
        simp only [List.foldl_cons, max_eq_right hv0]
        exact hm
      · rw [hvis]
        rcases hdisj with ⟨hr, hall⟩ | ⟨k, hk, hr, hget, hlater⟩
        · subst hr
          have hmvc : m = v c := by rw [hm, foldl_max_of_lt _ _ hall]
          refine ⟨by simp, by simpa using hmvc.symm, ?_⟩
          intro k' hk' hgt
          rcases k' with _ | k''
          · omega
          · simp only [List.length_cons] at hk'
            rw [List.get_cons_succ, hmvc]
            exact hall _ (List.get_mem _ k'' (by omega))
        · refine ⟨by rw [hr]; simp; omega, ?_, ?_⟩
          · have : r = k + 1 := by omega
            subst this
            rw [List.get_cons_succ]
            exact hget
          · intro k' hk' hgt
            rcases k' with _ | k''
            · omega
            · rw [List.get_cons_succ]
              exact hlater k'' (by simp at hk'; omega) (by omega)

theorem minLoop_none_charact (v : State → Int) (cs : List State) (g : RNG)
    (alpha beta : Int) (hne : cs ≠ []) (hv : ∀ c ∈ cs, v c ≤ i32max) :
    ∃ r m, minLoop (fun c gc _ _ => some (v c, gc)) cs 0 g alpha beta i32max none =
        some ((some r, m), g) ∧
      m = (visitedValsMin alpha (cs.map v) i32max).foldl min i32max ∧
      ∃ hk : r < (visitedValsMin alpha (cs.map v) i32max).length,
        (visitedValsMin alpha (cs.map v) i32max).get ⟨r, hk⟩ = m ∧
        ∀ k' (hk' : k' < (visitedValsMin alpha (cs.map v) i32max).length), r < k' →
          m < (visitedValsMin alpha (cs.map v) i32max).get ⟨k', hk'⟩ := by
  rcases cs with _ | ⟨c, rest⟩
  · exact absurd rfl hne
  · have hv0 : v c ≤ i32max := hv c (List.mem_cons_self c rest)
    by_cases hcut : v c < alpha
    · have hvis1 : visitedValsMin alpha ((c :: rest).map v) i32max = [v c] := by
        simp only [List.map_cons, visitedValsMin]
        rw [min_eq_right hv0, if_pos hcut]
      refine ⟨0, v c, by simp [minLoop, hv0, hcut], ?_, ?_⟩
      · rw [hvis1]
        simp [min_eq_right hv0]
      · rw [hvis1]
        refine ⟨by simp, rfl, ?_⟩
        intro k' hk' hgt
        simp only [List.length_singleton] at hk'
        omega
    · have hle : alpha ≤ v c := not_lt.mp hcut
      obtain ⟨r, m, hres, hm, hdisj⟩ :=
        minLoop_charact v rest 1 g alpha (min beta (v c)) (v c) 0 hle
      have hvis : visitedValsMin alpha ((c :: rest).map v) i32max =
          v c :: visitedValsMin alpha (rest.map v) (v c) := by
        simp only [List.map_cons, visitedValsMin, min_eq_right hv0]
        rw [if_neg (by omega)]
      have hstep : minLoop (fun c gc _ _ => some (v c, gc)) (c :: rest) 0 g alpha beta
          i32max none = minLoop (fun c gc _ _ => some (v c, gc)) rest 1 g
          alpha (min beta (v c)) (v c) (some 0) := by
        simp [minLoop, hv0, hcut]
      refine ⟨r, m, hstep.trans hres, ?_, ?_⟩
      · rw [hvis]
        simp only [List.foldl_cons, min_eq_right hv0]
        exact hm
      · rw [hvis]
        rcases hdisj with ⟨hr, hall⟩ | ⟨k, hk, hr, hget, hlater⟩
        · subst hr
          have hmvc : m = v c := by rw [hm, foldl_min_of_gt _ _ hall]
          refine ⟨by simp, by simpa using hmvc.symm, ?_⟩
          intro k' hk' hgt
          rcases k' with _ | k''
          · omega
          · simp only [List.length_cons] at hk'
            rw [List.get_cons_succ, hmvc]
            exact hall _ (List.get_mem _ k'' (by omega))
        · refine ⟨by rw [hr]; simp; omega, ?_, ?_⟩
          · have : r = k + 1 := by omega
            subst this
            rw [List.get_cons_succ]
            exact hget
          · intro k' hk' hgt
            rcases k' with _ | k''
            · omega
            · rw [List.get_cons_succ]
              exact hlater k'' (by simp at hk'; omega) (by omega)

theorem i32ofNat_range (n : Nat) : i32min ≤ i32ofNat n ∧ i32ofNat n ≤ i32max := by
  unfold i32ofNat i32min i32max
  have hr : n % 2 ^ 32 < 2 ^ 32 := Nat.mod_lt _ (by norm_num)
  dsimp only
  split <;> constructor <;> omega

theorem Fish_evaulate_range : ∀ (c : State) (q : Nat),
    i32min ≤ Fish.evaulate c q ∧ Fish.evaulate c q ≤ i32max :=
  fun _ _ => i32ofNat_range _

theorem minmax_one_eq (E : Evaluation) (s : State) (g : RNG) (player : Nat)
    (alpha beta : Int) (cs : List State) (g1 : RNG)
    (hw : s.winner = none) (hc : s.children g = some (cs, g1))
    (hh : ∀ l, E.heuristic l = l) :
    minmax E 1 s g player alpha beta =
      if s.current_player = player then
        maxLoop (fun c gc _ _ => some (E.evaulate c c.current_player, gc)) cs 0 g1
          alpha beta i32min none
      else
        minLoop (fun c gc _ _ => some (E.evaulate c c.current_player, gc)) cs 0 g1
          alpha beta i32max none := by
  have hf : (fun (child : State) (gc : RNG) (a b : Int) =>
      (minmax E 0 child gc player a b).map (fun r => (r.1.2, r.2))) =
      (fun c gc _ _ => some (E.evaulate c c.current_player, gc)) := by
    funext c gc a b
    simp [minmax]
  show minmax E (0 + 1) s g player alpha beta = _
  unfold minmax
  rw [hw]
  rw [hc]
  simp only [Option.bind_eq_bind, Option.some_bind]
  rw [hh cs]
  rw [hf]

/-- C9: at depth 1 (where the child values are the evaluator's leaf scores),
a maximizing node with a non-empty child list returns the index of the last
child, among those actually visited before the β cutoff, whose value equals
the best (maximal) value seen — a later equal value overwrites the index;
symmetrically at a minimizing node with the α cutoff. -/
theorem minmax_tie_breaking (E : Evaluation) (s : State) (g : RNG) (player : Nat)
    (alpha beta : Int) (cs : List State) (g1 : RNG)
    (hh : ∀ l, E.heuristic l = l) (hw : s.winner = none)
    (hc : s.children g = some (cs, g1)) (hne : cs.isEmpty = false)
    (hb : ∀ c q, i32min ≤ E.evaulate c q ∧ E.evaulate c q ≤ i32max) :
    (s.current_player = player →
      ∃ r m, minmax E 1 s g player alpha beta = some ((some r, m), g1) ∧
        ∃ hk : r < (visitedVals beta
            (cs.map fun c => E.evaulate c c.current_player) i32min).length,
          (visitedVals beta (cs.map fun c => E.evaulate c c.current_player)
              i32min).get ⟨r, hk⟩ = m ∧
          (∀ x ∈ visitedVals beta (cs.map fun c => E.evaulate c c.current_player)
              i32min, x ≤ m) ∧
          ∀ k' (hk' : k' < (visitedVals beta
              (cs.map fun c => E.evaulate c c.current_player) i32min).length), r < k' →
            (visitedVals beta (cs.map fun c => E.evaulate c c.current_player)
              i32min).get ⟨k', hk'⟩ < m) ∧
    (s.current_player ≠ player →
      ∃ r m, minmax E 1 s g player alpha beta = some ((some r, m), g1) ∧
        ∃ hk : r < (visitedValsMin alpha
            (cs.map fun c => E.evaulate c c.current_player) i32max).length,
          (visitedValsMin alpha (cs.map fun c => E.evaulate c c.current_player)
              i32max).get ⟨r, hk⟩ = m ∧
          (∀ x ∈ visitedValsMin alpha (cs.map fun c => E.evaulate c c.current_player)
              i32max, m ≤ x) ∧
          ∀ k' (hk' : k' < (visitedValsMin alpha
              (cs.map fun c => E.evaulate c c.current_player) i32max).length), r < k' →
            m < (visitedValsMin alpha (cs.map fun c => E.evaulate c c.current_player)
              i32max).get ⟨k', hk'⟩) := by
  have hne' : cs ≠ [] := by
    intro hnil
    rw [hnil] at hne
    exact absurd hne (by simp)
  have heq := minmax_one_eq E s g player alpha beta cs g1 hw hc hh
  constructor
  · intro hcp
    rw [heq, if_pos hcp]
    obtain ⟨r, m, hres, hm, hk, hget, hlater⟩ :=
      maxLoop_none_charact (fun c => E.evaulate c c.current_player) cs g1 alpha beta
        hne' (fun c _ => (hb c c.current_player).1)
    refine ⟨r, m, hres, hk, hget, ?_, hlater⟩
    intro x hx
    rw [hm]
    exact foldl_max_mem_le _ _ x hx
  · intro hcp
    rw [heq, if_neg hcp]
    obtain ⟨r, m, hres, hm, hk, hget, hlater⟩ :=
      minLoop_none_charact (fun c => E.evaulate c c.current_player) cs g1 alpha beta
        hne' (fun c _ => (hb c c.current_player).2)
    refine ⟨r, m, hres, hk, hget, ?_, hlater⟩
    intro x hx
    rw [hm]
    exact foldl_min_le_mem _ _ x hx

/-- C9 witness: on the concrete one-player state with two colors in the
center, depth-1 minmax for the mover returns a concrete chosen index. -/
theorem minmax_tie_breaking_witness :
    ∃ cs g1 r m, sCenter.children zeroRng = some (cs, g1) ∧
      minmax Fish 1 sCenter zeroRng 0 i32min i32max = some ((some r, m), g1) := by
  have h := minmax_tie_breaking Fish sCenter zeroRng 0 i32min i32max _ _
    (fun l => rfl) rfl rfl rfl Fish_evaulate_range
  obtain ⟨r, m, hres, -⟩ := h.1 rfl
  exact ⟨_, _, r, m, rfl, hres⟩

/-! ## C2: search returns a successor, and the randomness-independence of
the number of children -/

theorem dealLoop_isSome : ∀ (k : Nat) (s : State) (g : RNG),
    (State.dealLoop k s g).isSome = true ↔ 4 * k ≤ s.bag.len
  | 0, s, g => by simp [State.dealLoop]
  | k + 1, s, g => by
      unfold State.dealLoop
      rcases hdraw : s.bag.draw g 4 with _ | ⟨tiles, bag', g1⟩
      · have hd : ¬ 4 ≤ s.bag.len := by
          have hiff := TileSet.drawAux_isSome 4 TileSet.new s.bag g
          rw [show TileSet.drawAux 4 TileSet.new s.bag g = s.bag.draw g 4 from rfl,
            hdraw] at hiff
          intro hc
          exact absurd (hiff.mpr hc) (by simp)
        simp only [Option.bind_eq_bind, Option.none_bind, Option.isSome_none,
          Bool.false_eq_true, false_iff]
        omega
      · obtain ⟨-, hbag⟩ := s.bag.draw_spec g 4 tiles bag' g1 hdraw
        simp only [Option.bind_eq_bind, Option.some_bind]
        rw [dealLoop_isSome k _ g1]
        simp only
        omega

theorem deal_some_irrel (s : State) (g1 : RNG) (x : State × RNG)
    (h : s.deal g1 = some x) (g2 : RNG) : ∃ y, s.deal g2 = some y := by
  have h1 : (s.deal g1).isSome = true := by rw [h]; rfl
  unfold State.deal at h1 ⊢
  dsimp only at h1 ⊢
  rw [dealLoop_isSome] at h1
  have h2 := (dealLoop_isSome 5
    (if s.bag.len < 4 * 5 then
      { s with bag := s.bag.extend s.tray, tray := TileSet.new } else s) g2).mpr h1
  exact Option.isSome_iff_exists.mp h2

theorem prepare_some_irrel (s : State) (g1 : RNG) (c1 : State) (h1 : RNG)
    (h : s.prepare_next_round g1 = some (c1, h1)) (g2 : RNG) :
    ∃ c2 h2, s.prepare_next_round g2 = some (c2, h2) := by
  unfold State.prepare_next_round at h ⊢
  by_cases he : s.is_empty = true
  · rw [if_pos he] at h ⊢
    rcases hpl : State.playersLoop s.players s.tray with _ | ⟨players', tray'⟩ <;>
      rw [hpl] at h
    · exact absurd h (by simp)
    · try simp only [Option.bind_eq_bind, Option.some_bind] at h ⊢
      try dsimp only at h ⊢
      rcases hd1 : State.deal { s with players := players', tray := tray' } g1 with
        _ | ⟨s2, g2'⟩ <;> rw [hd1] at h
      · exact absurd h (by simp)
      · obtain ⟨⟨s3, g3⟩, hd2⟩ := deal_some_irrel _ g1 (s2, g2') hd1 g2
        rw [hd2]
        exact ⟨_, _, rfl⟩
  · rw [if_neg he] at h ⊢
    exact ⟨_, _, rfl⟩

theorem placeRows_len_irrel : ∀ (rows : List (Fin 5)) (s : State) (t : Tile)
    (cnt : Nat) (g1 : RNG) (l1 : List State) (h1 : RNG) (g2 : RNG),
    State.placeRows rows s t cnt g1 = some (l1, h1) →
    ∃ l2 h2, State.placeRows rows s t cnt g2 = some (l2, h2) ∧ l2.length = l1.length
  | [], s, t, cnt, g1, l1, h1, g2, h => by
      simp only [State.placeRows, Option.some.injEq, Prod.mk.injEq] at h
      exact ⟨[], g2, rfl, by rw [← h.1]⟩
  | row :: rest, s, t, cnt, g1, l1, h1, g2, h => by
      unfold State.placeRows at h ⊢
      dsimp only at h ⊢
      rcases hmp : (s.players.getD s.current_player Player.new).maybe_place t cnt
        row with ⟨ok, p'⟩
      rw [hmp] at h
      try dsimp only at h ⊢
      cases ok
      · exact placeRows_len_irrel rest s t cnt g1 l1 h1 g2 h
      · simp only [if_true] at h ⊢
        rcases hp1 : (s.setPlayer s.current_player p').prepare_next_round g1 with
          _ | ⟨c1, gg1⟩ <;> rw [hp1] at h
        · exact absurd h (by simp)
        · try simp only [Option.bind_eq_bind, Option.some_bind] at h
          try dsimp only at h
          rcases hr1 : State.placeRows rest s t cnt gg1 with _ | ⟨ls1, gg1'⟩ <;>
            rw [hr1] at h
          · exact absurd h (by simp)
          · try simp only [Option.bind_eq_bind, Option.some_bind] at h
            try dsimp only at h
            simp only [Option.some.injEq, Prod.mk.injEq] at h
            obtain ⟨c2, gg2, hp2⟩ := prepare_some_irrel _ g1 c1 gg1 hp1 g2
            obtain ⟨ls2, gg2', hr2, hlen⟩ :=
              placeRows_len_irrel rest s t cnt gg1 ls1 gg1' gg2 hr1
            rw [hp2]
            try simp only [Option.bind_eq_bind, Option.some_bind]
            try dsimp only
            rw [hr2]
            try simp only [Option.bind_eq_bind, Option.some_bind]
            try dsimp only
            refine ⟨c2 :: ls2, gg2', rfl, ?_⟩
            rw [← h.1]
            simp [hlen]

theorem place_all_len_irrel (s : State) (t : Tile) (cnt : Nat) (g1 : RNG)
    (l1 : List State) (h1 : RNG) (g2 : RNG)
    (h : s.place_all t cnt g1 = some (l1, h1)) :
    ∃ l2 h2, s.place_all t cnt g2 = some (l2, h2) ∧ l2.length = l1.length := by
  unfold State.place_all at h ⊢
  rcases hr1 : State.placeRows (List.finRange 5) s t cnt g1 with _ | ⟨states1, gg1⟩ <;>
    rw [hr1] at h
  · exact absurd h (by simp)
  · obtain ⟨states2, gg2, hr2, hlen⟩ :=
      placeRows_len_irrel (List.finRange 5) s t cnt g1 states1 gg1 g2 hr1
    rw [hr2]
    try simp only [Option.bind_eq_bind, Option.some_bind] at h ⊢
    try dsimp only at h ⊢
    have hempty : states2.isEmpty = states1.isEmpty := by
      rcases states1 with _ | ⟨a, as⟩ <;> rcases states2 with _ | ⟨b, bs⟩ <;>
        first
          | rfl
          | (exfalso; simp at hlen)
    rw [hempty]
    by_cases hie : states1.isEmpty
    · rw [if_pos hie] at h ⊢
      rcases hp1 : (s.setPlayer s.current_player
          { s.players.getD s.current_player Player.new with
              discard := (s.players.getD s.current_player Player.new).discard.add t
                cnt }).prepare_next_round gg1 with _ | ⟨c1, ggg1⟩ <;> rw [hp1] at h
      · exact absurd h (by simp)
      · obtain ⟨c2, ggg2, hp2⟩ := prepare_some_irrel _ gg1 c1 ggg1 hp1 gg2
        rw [hp2]
        try simp only [Option.bind_eq_bind, Option.some_bind] at h ⊢
        try dsimp only at h ⊢
        simp only [Option.some.injEq, Prod.mk.injEq] at h
        refine ⟨[c2], ggg2, rfl, ?_⟩
        rw [← h.1]
        rfl
    · rw [if_neg hie] at h ⊢
      simp only [Option.some.injEq, Prod.mk.injEq] at h
      exact ⟨states2, gg2, rfl, by rw [← h.1]; exact hlen⟩

theorem tileLoop_len_irrel : ∀ (ts : List Tile) (stateF : State) (factory : TileSet)
    (g1 : RNG) (l1 : List State) (h1 : RNG) (g2 : RNG),
    State.tileLoop ts stateF factory g1 = some (l1, h1) →
    ∃ l2 h2, State.tileLoop ts stateF factory g2 = some (l2, h2) ∧
      l2.length = l1.length
  | [], stateF, factory, g1, l1, h1, g2, h => by
      simp only [State.tileLoop, Option.some.injEq, Prod.mk.injEq] at h
      exact ⟨[], g2, rfl, by rw [← h.1]⟩
  | t :: ts, stateF, factory, g1, l1, h1, g2, h => by
      unfold State.tileLoop at h ⊢
      dsimp only [TileSet.drain] at h ⊢
      by_cases hcount : factory.get t > 0
      · rw [if_pos hcount] at h ⊢
        rcases hp1 : ({ stateF with
            center := stateF.center.extend (factory.set t 0) } : State).place_all t
            (factory.get t) g1 with _ | ⟨cs1, gg1⟩ <;> rw [hp1] at h
        · exact absurd h (by simp)
        · try simp only [Option.bind_eq_bind, Option.some_bind] at h
          try dsimp only at h
          rcases hr1 : State.tileLoop ts stateF factory gg1 with _ | ⟨cs1', gg1'⟩ <;>
            rw [hr1] at h
          · exact absurd h (by simp)
          · try simp only [Option.bind_eq_bind, Option.some_bind] at h
            try dsimp only at h
            simp only [Option.some.injEq, Prod.mk.injEq] at h
            obtain ⟨cs2, gg2, hp2, hlen2⟩ := place_all_len_irrel _ t (factory.get t)
              g1 cs1 gg1 g2 hp1
            obtain ⟨cs2', gg2', hr2, hlen2'⟩ :=
              tileLoop_len_irrel ts stateF factory gg1 cs1' gg1' gg2 hr1
            rw [hp2]
            try simp only [Option.bind_eq_bind, Option.some_bind]
            try dsimp only
            rw [hr2]
            try simp only [Option.bind_eq_bind, Option.some_bind]
            try dsimp only
            refine ⟨cs2 ++ cs2', gg2', rfl, ?_⟩
            rw [← h.1]
            simp [hlen2, hlen2']
      · rw [if_neg hcount] at h ⊢
        exact tileLoop_len_irrel ts stateF factory g1 l1 h1 g2 h

theorem factoryLoop_len_irrel : ∀ (fis : List Nat) (s : State) (g1 : RNG)
    (l1 : List State) (h1 : RNG) (g2 : RNG),
    State.factoryLoop fis s g1 = some (l1, h1) →
    ∃ l2 h2, State.factoryLoop fis s g2 = some (l2, h2) ∧ l2.length = l1.length
  | [], s, g1, l1, h1, g2, h => by
      simp only [State.factoryLoop, Option.some.injEq, Prod.mk.injEq] at h
      exact ⟨[], g2, rfl, by rw [← h.1]⟩
  | fi :: fis, s, g1, l1, h1, g2, h => by
      unfold State.factoryLoop at h ⊢
      dsimp only at h ⊢
      rcases ht1 : State.tileLoop TILES { s with factories := s.factories.eraseIdx fi }
          (s.factories.getD fi TileSet.new) g1 with _ | ⟨cs1, gg1⟩ <;> rw [ht1] at h
      · exact absurd h (by simp)
      · try simp only [Option.bind_eq_bind, Option.some_bind] at h
        try dsimp only at h
        rcases hr1 : State.factoryLoop fis s gg1 with _ | ⟨cs1', gg1'⟩ <;>
          rw [hr1] at h
        · exact absurd h (by simp)
        · try simp only [Option.bind_eq_bind, Option.some_bind] at h
          try dsimp only at h
          simp only [Option.some.injEq, Prod.mk.injEq] at h
          obtain ⟨cs2, gg2, ht2, hlen2⟩ := tileLoop_len_irrel TILES _ _ g1 cs1 gg1 g2 ht1
          obtain ⟨cs2', gg2', hr2, hlen2'⟩ :=
            factoryLoop_len_irrel fis s gg1 cs1' gg1' gg2 hr1
          rw [ht2]
          try simp only [Option.bind_eq_bind, Option.some_bind]
          try dsimp only
          rw [hr2]
          try simp only [Option.bind_eq_bind, Option.some_bind]
          try dsimp only
          refine ⟨cs2 ++ cs2', gg2', rfl, ?_⟩
          rw [← h.1]
          simp [hlen2, hlen2']

theorem centerLoop_len_irrel : ∀ (ts : List Tile) (s : State) (g1 : RNG)
    (l1 : List State) (h1 : RNG) (g2 : RNG),
    State.centerLoop ts s g1 = some (l1, h1) →
    ∃ l2 h2, State.centerLoop ts s g2 = some (l2, h2) ∧ l2.length = l1.length
  | [], s, g1, l1, h1, g2, h => by
      simp only [State.centerLoop, Option.some.injEq, Prod.mk.injEq] at h
      exact ⟨[], g2, rfl, by rw [← h.1]⟩
  | t :: ts, s, g1, l1, h1, g2, h => by
      unfold State.centerLoop at h ⊢
      dsimp only [TileSet.drain] at h ⊢
      by_cases hcount : s.center.get t > 0
      · rw [if_pos hcount] at h ⊢
        rcases hp1 : ({ s with center := s.center.set t 0 } : State).place_all t
            (s.center.get t) g1 with _ | ⟨cs1, gg1⟩ <;> rw [hp1] at h
        · exact absurd h (by simp)
        · try simp only [Option.bind_eq_bind, Option.some_bind] at h
          try dsimp only at h
          rcases hr1 : State.centerLoop ts s gg1 with _ | ⟨cs1', gg1'⟩ <;>
            rw [hr1] at h
          · exact absurd h (by simp)
          · try simp only [Option.bind_eq_bind, Option.some_bind] at h
            try dsimp only at h
            simp only [Option.some.injEq, Prod.mk.injEq] at h
            obtain ⟨cs2, gg2, hp2, hlen2⟩ := place_all_len_irrel _ t (s.center.get t)
              g1 cs1 gg1 g2 hp1
            obtain ⟨cs2', gg2', hr2, hlen2'⟩ :=
              centerLoop_len_irrel ts s gg1 cs1' gg1' gg2 hr1
            rw [hp2]
            try simp only [Option.bind_eq_bind, Option.some_bind]
            try dsimp only
            rw [hr2]
            try simp only [Option.bind_eq_bind, Option.some_bind]
            try dsimp only
            refine ⟨cs2 ++ cs2', gg2', rfl, ?_⟩
            rw [← h.1]
            simp [hlen2, hlen2']
      · rw [if_neg hcount] at h ⊢
        exact centerLoop_len_irrel ts s g1 l1 h1 g2 h

theorem children_len_irrel (s : State) (g1 : RNG) (cs1 : List State) (h1 : RNG)
    (g2 : RNG) (h : s.children g1 = some (cs1, h1)) :
    ∃ cs2 h2, s.children g2 = some (cs2, h2) ∧ cs2.length = cs1.length := by
  unfold State.children at h ⊢
  rcases hf1 : State.factoryLoop (List.range s.factories.length) s g1 with
    _ | ⟨a1, gg1⟩ <;> rw [hf1] at h
  · exact absurd h (by simp)
  · try simp only [Option.bind_eq_bind, Option.some_bind] at h
    try dsimp only at h
    rcases hc1 : State.centerLoop TILES s gg1 with _ | ⟨b1, gg1'⟩ <;> rw [hc1] at h
    · exact absurd h (by simp)
    · try simp only [Option.bind_eq_bind, Option.some_bind] at h
      try dsimp only at h
      simp only [Option.some.injEq, Prod.mk.injEq] at h
      obtain ⟨a2, gg2, hf2, hlena⟩ := factoryLoop_len_irrel _ s g1 a1 gg1 g2 hf1
      obtain ⟨b2, gg2', hc2, hlenb⟩ := centerLoop_len_irrel TILES s gg1 b1 gg1' gg2 hc1
      rw [hf2]
      try simp only [Option.bind_eq_bind, Option.some_bind]
      try dsimp only
      rw [hc2]
      try simp only [Option.bind_eq_bind, Option.some_bind]
      try dsimp only
      refine ⟨a2 ++ b2, gg2', rfl, ?_⟩
      rw [← h.1]
      simp [hlena, hlenb]

/-- C2 counterexample: on a concrete state with ten legal moves, search at
depth 0 returns Rust's None (modelled `some (none, _)`) even though children
is non-empty — refuting the claim that None is returned only when there are
zero legal moves. -/
theorem search_depth_zero_counterexample :
    search Fish sCenter zeroRng 0 = some (none, zeroRng) ∧
      ∃ cs g1, sCenter.children zeroRng = some (cs, g1) ∧ cs.isEmpty = false :=
  ⟨rfl, _, _, rfl, rfl⟩

/-- C2 as amended: search always returns a chosen successor or Rust-None
(or panics, modelled by the outer `none`); at depth 1 on a state that is not
yet won, whose children enumeration succeeds, with an evaluator whose
heuristic is the identity and whose values fit in i32, search returns
Rust-None exactly when there are zero legal moves, and a successor
otherwise.  (At depth 0, and at game-over states, it returns Rust-None
regardless — see the counterexample.) -/
theorem search_characterization (E : Evaluation) (s : State) (g : RNG)
    (cs : List State) (g1 : RNG)
    (hh : ∀ l, E.heuristic l = l) (hw : s.winner = none)
    (hc : s.children g = some (cs, g1))
    (hb : ∀ c q, i32min ≤ E.evaulate c q ∧ E.evaulate c q ≤ i32max) :
    (cs.isEmpty = true → search E s g 1 = some (none, g1)) ∧
    (cs.isEmpty = false → ∃ c g2, search E s g 1 = some (some c, g2)) := by
  constructor
  · intro hie
    have hnil : cs = [] := by simpa using hie
    subst hnil
    have hmm := minmax_one_eq E s g s.current_player i32min i32max [] g1 hw hc hh
    rw [if_pos rfl] at hmm
    unfold search
    dsimp only
    rw [hmm]
    rfl
  · intro hie
    obtain ⟨r, m, hres, hk, -, -, -⟩ :=
      (minmax_tie_breaking E s g s.current_player i32min i32max cs g1 hh hw hc hie
        hb).1 rfl
    have hrlt : r < cs.length := by
      have h1 := visitedVals_length_le (cs.map fun c => E.evaulate c c.current_player)
        i32max i32min
      have h2 : (cs.map fun c => E.evaulate c c.current_player).length = cs.length :=
        List.length_map _ _
      omega
    obtain ⟨cs2, g2, hc2, hlen⟩ := children_len_irrel s g cs g1 g1 hc
    unfold search
    dsimp only
    rw [hres]
    try simp only [Option.bind_eq_bind, Option.some_bind]
    try dsimp only
    rw [hc2]
    try simp only [Option.bind_eq_bind, Option.some_bind]
    try dsimp only
    rw [List.get?_eq_get (by omega : r < cs2.length)]
    exact ⟨_, _, rfl⟩

/-- C2 witness: on the concrete one-player state with ten legal moves and
no winner, depth-1 search returns a successor. -/
theorem search_characterization_witness :
    ∃ c g2, search Fish sCenter zeroRng 1 = some (some c, g2) := by
  have h := search_characterization Fish sCenter zeroRng _ _ (fun l => rfl) rfl rfl
    Fish_evaulate_range
  exact h.2 rfl

end Azul
